import Mathlib

/-!
# Negative log-likelihoods of the AR(1) linear-Gaussian state-space model

Shallow embedding of the three TMB objective functions

* `marginal_estimation.cpp` (Kalman filter, parameters `a`, `log_q`, `log_r`),
* `joint_estimation.cpp` (state-augmented, parameters `a`, `log_q`, `log_r`, `x`),
* `known_variance/joint_estimation_known_variance.cpp` (state-augmented, `q`, `r` data),

followed by the properties of the specification proved about them.

The objective functions are C++ templates over a numeric `Type`; the embedding is
generic over a field `T` carrying the elementary functions the code calls
(`TMBScalar`).  All theorems instantiate `T` with the real numbers, that is, they
are statements about the exact arithmetic of the formulas (rounding is not modelled).

The density terms are computed by the TMB library function `dnorm`, whose code is
not part of the repository; it is modelled from section 4.1 of the specification,
including the precondition `sd > 0` and its `InvalidScale` signal.  A call of a
joint evaluator therefore has a `CallResult`: the returned `nll`, a domain error
signalled by `dnorm`, or an out-of-bounds read of a vector.
-/

namespace StateSpace

/-! ## Numeric type of the templates -/

/-- The elementary functions and the constant the objective functions use on their
numeric `Type`: `exp`, `log`, `sqrt` and `M_PI`, and the test `0 < x` that the
precondition `sd > 0` of the density needs. -/
class TMBScalar (T : Type) where
  /-- The exponential `exp`. -/
  exp : T → T
  /-- The natural logarithm `log`. -/
  log : T → T
  /-- The square root `sqrt`. -/
  sqrt : T → T
  /-- The constant `M_PI`. -/
  M_PI : T
  /-- The test `0 < x`. -/
  positive : T → Bool

/-- The real numbers as the numeric type of the templates.  The square root of a
negative real is `0` here, so a negative variance gives a scale that is not
positive. -/
noncomputable instance realScalar : TMBScalar ℝ where
  exp := Real.exp
  log := Real.log
  sqrt := Real.sqrt
  M_PI := Real.pi
  positive := fun x => decide (0 < x)

/-! ## What a caller observes -/

/-- The error taxonomy of the specification (section 7). -/
inductive DomainError where
  | InvalidScale
  | NonStationaryCoefficient
  | EmptySequence
  deriving DecidableEq, Repr

/-- The possible results of a call: it returns a value, it signals a domain error,
or it reads outside the bounds of a vector. -/
inductive CallResult (T : Type) where
  | returned (v : T)
  | raised (e : DomainError)
  | outOfBounds

/-- Sequencing of two steps: when the first step does not return a value, its
result is the result of the sequence. -/
def CallResult.bind {α β : Type} (r : CallResult α) (f : α → CallResult β) : CallResult β :=
  match r with
  | CallResult.returned v => f v
  | CallResult.raised e => CallResult.raised e
  | CallResult.outOfBounds => CallResult.outOfBounds

/-- Calls are sequenced with `CallResult.bind`; `pure` returns a value. -/
instance : Monad CallResult where
  pure := CallResult.returned
  bind := CallResult.bind

/-- The returned value, or `d` when the call did not return one. -/
def CallResult.getD {α : Type} (r : CallResult α) (d : α) : α :=
  match r with
  | CallResult.returned v => v
  | _ => d

section Embedding

variable {T : Type} [Field T] [TMBScalar T]

open TMBScalar

/-- A read `v[t]` of a vector: out of bounds when `t` is not below its size. -/
def vector_read (v : List T) (t : Nat) : CallResult T :=
  match v[t]? with
  | some u => CallResult.returned u
  | none => CallResult.outOfBounds

/-! ## Gaussian log-density -/

/-- Modelled from the spec: the value the operation `log_density(x, mean, sd)` of
section 4.1 returns when its precondition `sd > 0` holds.  The precondition, with
the `InvalidScale` signal for `sd <= 0`, is part of `dnorm` below, through which
the evaluators compute every density term.  The source calls the TMB library
function `dnorm`, whose code is not part of the repository. -/
def log_density (x mean sd : T) : T :=
  -0.5 * log (2 * M_PI) - log sd - 0.5 * ((x - mean) / sd) ^ 2

/-- Modelled from the spec: the TMB library call `dnorm(x, mean, sd, give_log)`,
that is the operation `log_density` of section 4.1 with its precondition: a scale
`sd` that is not positive is a domain error and signals `InvalidScale`; for
`sd > 0` the call returns `log_density` when `give_log = true` and the density
itself otherwise. -/
def dnorm (x mean sd : T) (give_log : Bool) : CallResult T :=
  if positive sd then
    CallResult.returned
      (if give_log then log_density x mean sd else exp (log_density x mean sd))
  else
    CallResult.raised DomainError.InvalidScale

/-! ## State-augmented (joint) objective functions -/

/-- The objective function of `known_variance/joint_estimation_known_variance.cpp`:
data `y`, `q`, `r`, parameters `a`, `x`.  The two loops run over `t = 1..n-1` and
`t = 0..n-1` with `n = y.size()`.  The function has no guard and no statement that
signals an error of its own: a call returns `nll` unless a read of a vector is out
of bounds or a call of `dnorm` signals `InvalidScale`. -/
def joint_estimation_known_variance (y : List T) (a q r : T) (x : List T) :
    CallResult T := do
  let n := y.length
  let nll : T := 0
  -- State equation likelihood
  let nll ← (List.range' 1 (n - 1)).foldlM (fun nll t => do
    let mean_xt := a * (← vector_read x (t - 1))
    pure (nll - (← dnorm (← vector_read x t) mean_xt (sqrt q) true))) nll
  -- Observation equation likelihood
  let nll ← (List.range' 0 n).foldlM (fun nll t => do
    pure (nll - (← dnorm (← vector_read y t) (← vector_read x t) (sqrt r) true))) nll
  -- Prior for initial state
  let nll := nll - (← dnorm (← vector_read x 0) 0 (sqrt (q / (1 - a * a))) true)
  return nll

/-- The objective function of `joint_estimation.cpp`: data `y`, parameters `a`,
`log_q`, `log_r`, `x`.  As for the known-variance variant, a call returns `nll`
unless a read of a vector is out of bounds or a call of `dnorm` signals
`InvalidScale`. -/
def joint_estimation (y : List T) (a log_q log_r : T) (x : List T) : CallResult T := do
  let q := exp log_q
  let r := exp log_r
  let n := y.length
  let nll : T := 0
  -- State equation likelihood
  let nll ← (List.range' 1 (n - 1)).foldlM (fun nll t => do
    let mean_xt := a * (← vector_read x (t - 1))
    pure (nll - (← dnorm (← vector_read x t) mean_xt (sqrt q) true))) nll
  -- Observation equation likelihood
  let nll ← (List.range' 0 n).foldlM (fun nll t => do
    pure (nll - (← dnorm (← vector_read y t) (← vector_read x t) (sqrt r) true))) nll
  -- Prior for initial state
  let nll := nll - (← dnorm (← vector_read x 0) 0 (sqrt (q / (1 - a * a))) true)
  return nll

/-! ## Kalman-filter (marginal) objective function -/

/-- The variables the loop of `marginal_estimation.cpp` carries from one
iteration to the next. -/
structure KalmanState (T : Type) where
  /-- Predicted state `x_pred`. -/
  x_pred : T
  /-- Predicted covariance `P_pred`. -/
  P_pred : T
  /-- Accumulated negative log-likelihood `nll`. -/
  nll : T

/-- One iteration of the loop of `marginal_estimation.cpp` (lines 30-46) on the
observation `yt = y[t]`. -/
def kalman_step (a q r : T) (s : KalmanState T) (yt : T) : KalmanState T :=
  -- Observation prediction
  let y_pred := s.x_pred
  let S := s.P_pred + r
  -- Update step
  let K := s.P_pred / S
  let x_filt := s.x_pred + K * (yt - y_pred)
  let P_filt := (1 - K) * s.P_pred
  -- Accumulate negative log-likelihood
  let nll := s.nll + 0.5 * (log (2 * M_PI * S) + (yt - y_pred) ^ 2 / S)
  -- Predict next state
  { x_pred := a * x_filt, P_pred := a * a * P_filt + q, nll := nll }

/-- The values of `x_pred`, `P_pred` and `nll` before the loop (lines 19, 25, 26). -/
def kalman_init (a q : T) : KalmanState T :=
  { x_pred := 0, P_pred := q / (1 - a * a), nll := 0 }

/-- Lines 18-48 of `marginal_estimation.cpp` as a function of the variances `q`
and `r`: initialisation, the loop over `t = 0..n-1`, and the returned `nll`. -/
def kalman_marginal_nll (y : List T) (a q r : T) : T :=
  (y.foldl (kalman_step a q r) (kalman_init a q)).nll

/-- The objective function of `marginal_estimation.cpp`: data `y`, parameters `a`,
`log_q`, `log_r`. -/
def marginal_estimation (y : List T) (a log_q log_r : T) : T :=
  let q := exp log_q
  let r := exp log_r
  kalman_marginal_nll y a q r

/-- The state of the filter at the start of iteration `t`: the loop of
`marginal_estimation.cpp` run on the first `t` observations.  Its fields are the
sequences `x_pred_t`, `P_pred_t` and the value of `nll` accumulated so far. -/
def kalman_state_at (y : List T) (a q r : T) (t : Nat) : KalmanState T :=
  (y.take t).foldl (kalman_step a q r) (kalman_init a q)

/-! ## Calls of the objective functions -/

/-- A call of the objective function of `marginal_estimation.cpp`.  The function
has no statement that signals an error, it does not call `dnorm`, and its only
vector read `y[t]` is guarded by `t < n`: it runs to `return nll`. -/
def marginal_estimation_call (y : List T) (a log_q log_r : T) : CallResult T :=
  CallResult.returned (marginal_estimation y a log_q log_r)

/-- A call of the objective function of `joint_estimation.cpp`. -/
def joint_estimation_call (y : List T) (a log_q log_r : T) (x : List T) : CallResult T :=
  joint_estimation y a log_q log_r x

/-- A call of the objective function of
`known_variance/joint_estimation_known_variance.cpp`. -/
def joint_estimation_known_variance_call (y : List T) (a q r : T) (x : List T) :
    CallResult T :=
  joint_estimation_known_variance y a q r x

/-! ## Auxiliary definitions for the marginalisation identity -/

/-- The joint NLL `state_augmented_nll(y, a, q, r, x)` of the known-variance
evaluator as a function of a state path `x` of the length of `y`.  For such a path,
`n >= 1` and positive variances the call returns a value, and the default `0` is
not used. -/
def state_augmented_nll (y : List T) (a q r : T) (x : Fin y.length → T) : T :=
  (joint_estimation_known_variance y a q r (List.ofFn x)).getD 0

/-- Auxiliary: the log-density of the continuation of a state path after the state
`xprev`, that is, the transition and observation terms of the remaining time
steps. -/
def path_log_density (a q r : T) : T → List T → List T → T
  | _, [], _ => 0
  | _, _ :: _, [] => 0
  | xprev, yt :: ys, xt :: xs =>
    log_density xt (a * xprev) (sqrt q) + log_density yt xt (sqrt r)
      + path_log_density a q r xt ys xs

/-- Auxiliary: the joint log-density of a state path and the observations when the
first state has the normal prior with mean `m` and variance `P`. -/
def joint_log_density (a q r m P : T) : List T → List T → T
  | y0 :: ys, x0 :: xs =>
    log_density x0 m (sqrt P) + log_density y0 x0 (sqrt r)
      + path_log_density a q r x0 ys xs
  | _, _ => 0

/-! ## The quantities computed in one iteration of the Kalman loop -/

/-- The innovation variance `S = P_pred + r` of the iteration that starts in
state `s` (line 33). -/
def innovation_variance (r : T) (s : KalmanState T) : T :=
  s.P_pred + r

/-- The Kalman gain `K = P_pred / S` of the iteration that starts in state `s`
(line 36). -/
def kalman_gain (r : T) (s : KalmanState T) : T :=
  s.P_pred / innovation_variance r s

/-- The filtered state `x_filt = x_pred + K * (y[t] - y_pred)` with
`y_pred = x_pred` (line 37). -/
def filtered_mean (r : T) (s : KalmanState T) (yt : T) : T :=
  s.x_pred + kalman_gain r s * (yt - s.x_pred)

/-- The filtered covariance `P_filt = (1 - K) * P_pred` (line 38). -/
def filtered_variance (r : T) (s : KalmanState T) : T :=
  (1 - kalman_gain r s) * s.P_pred

end Embedding

/-! ## The real instance -/

@[simp]
theorem exp_real (x : ℝ) : TMBScalar.exp x = Real.exp x := rfl

@[simp]
theorem log_real (x : ℝ) : TMBScalar.log x = Real.log x := rfl

@[simp]
theorem sqrt_real (x : ℝ) : TMBScalar.sqrt x = Real.sqrt x := rfl

@[simp]
theorem M_PI_real : (TMBScalar.M_PI : ℝ) = Real.pi := rfl

/-! ## Gaussian log-density: basic identities -/

/-- The negative log-density with standard deviation `sqrt v`, for a variance
`v > 0`, in the form the Kalman loop accumulates. -/
theorem neg_log_density_sqrt (x mean v : ℝ) (hv : 0 < v) :
    -log_density x mean (Real.sqrt v)
      = 0.5 * (Real.log (2 * Real.pi * v) + (x - mean) ^ 2 / v) := by
  unfold log_density
  simp only [log_real, M_PI_real]
  rw [Real.log_sqrt hv.le, div_pow, Real.sq_sqrt hv.le,
    Real.log_mul (by positivity) hv.ne']
  ring

/-- For a stationary coefficient the denominator of the stationary variance is
positive. -/
theorem one_sub_sq_pos (a : ℝ) (ha : |a| < 1) : 0 < 1 - a * a := by
  have h := abs_lt.mp ha
  nlinarith [h.1, h.2]


@[simp]
theorem positive_real (x : ℝ) : TMBScalar.positive x = decide (0 < x) := rfl

/-! ## Calls: basic facts -/

@[simp]
theorem bind_returned {α β : Type} (v : α) (f : α → CallResult β) :
    (CallResult.returned v >>= f) = f v := rfl

@[simp]
theorem bind_raised {α β : Type} (e : DomainError) (f : α → CallResult β) :
    ((CallResult.raised e : CallResult α) >>= f) = CallResult.raised e := rfl

@[simp]
theorem bind_outOfBounds {α β : Type} (f : α → CallResult β) :
    ((CallResult.outOfBounds : CallResult α) >>= f) = CallResult.outOfBounds := rfl

@[simp]
theorem pure_eq_returned {α : Type} (v : α) :
    (pure v : CallResult α) = CallResult.returned v := rfl

@[simp]
theorem getD_returned {α : Type} (v d : α) : (CallResult.returned v).getD d = v := rfl

/-- A read below the size of the vector returns the entry. -/
theorem vector_read_of_lt (v : List ℝ) (t : ℕ) (h : t < v.length) :
    vector_read v t = CallResult.returned (v.getD t 0) := by
  unfold vector_read
  rw [List.getD_eq_getElem?_getD, List.getElem?_eq_getElem h]
  rfl

/-- A read at or above the size of the vector is out of bounds. -/
theorem vector_read_of_le (v : List ℝ) (t : ℕ) (h : v.length ≤ t) :
    vector_read v t = CallResult.outOfBounds := by
  unfold vector_read
  rw [List.getElem?_eq_none h]

/-- A read does not signal a domain error. -/
theorem vector_read_ne_raised (v : List ℝ) (t : ℕ) (e : DomainError) :
    vector_read v t ≠ CallResult.raised e := by
  unfold vector_read
  cases v[t]? <;> simp

/-- With a positive scale `dnorm(x, mean, sd, true)` returns the log-density. -/
theorem dnorm_of_pos (x mean sd : ℝ) (h : 0 < sd) :
    dnorm x mean sd true = CallResult.returned (log_density x mean sd) := by
  simp [dnorm, h]

/-- With a scale that is not positive `dnorm` signals `InvalidScale`. -/
theorem dnorm_of_nonpos (x mean sd : ℝ) (give_log : Bool) (h : sd ≤ 0) :
    dnorm x mean sd give_log = CallResult.raised DomainError.InvalidScale := by
  simp [dnorm, not_lt.mpr h]

/-- The only domain error `dnorm` signals is `InvalidScale`. -/
theorem dnorm_ne_raised (x mean sd : ℝ) (give_log : Bool) (e : DomainError)
    (he : e ≠ DomainError.InvalidScale) : dnorm x mean sd give_log ≠ CallResult.raised e := by
  unfold dnorm
  split
  · simp
  · intro h
    exact he (CallResult.raised.inj h).symm

/-! ## Loops over an index range -/

/-- A loop `for (t = s; t < s + k; t++) acc -= term t` whose steps all return
subtracts the sum of the terms. -/
theorem foldlM_range'_sub (body : ℝ → ℕ → CallResult ℝ) (term : ℕ → ℝ) (k : ℕ) :
    ∀ (s : ℕ) (init : ℝ),
      (∀ t, s ≤ t → t < s + k → ∀ acc, body acc t = CallResult.returned (acc - term t)) →
      (List.range' s k).foldlM body init
        = CallResult.returned (init - ∑ t in Finset.Ico s (s + k), term t) := by
  induction k with
  | zero => intro s init _; simp
  | succ k ih =>
    intro s init h
    rw [List.range'_succ, List.foldlM_cons, h s le_rfl (by omega), bind_returned,
      ih (s + 1) _ (fun t h1 h2 => h t (by omega) (by omega)),
      Finset.sum_eq_sum_Ico_succ_bot (by omega : s < s + (k + 1))]
    congr 1
    have e : s + 1 + k = s + (k + 1) := by omega
    rw [e]
    ring

/-- A loop whose first step signals a domain error signals that error. -/
theorem foldlM_range'_raised (body : ℝ → ℕ → CallResult ℝ) (s k : ℕ) (e : DomainError)
    (init : ℝ) (h : body init s = CallResult.raised e) :
    (List.range' s (k + 1)).foldlM body init = CallResult.raised e := by
  rw [List.range'_succ, List.foldlM_cons, h, bind_raised]

/-- A loop none of whose steps signals the error `e` does not signal `e`. -/
theorem foldlM_ne_raised (body : ℝ → ℕ → CallResult ℝ) (e : DomainError)
    (h : ∀ acc t, body acc t ≠ CallResult.raised e) (l : List ℕ) :
    ∀ init : ℝ, l.foldlM body init ≠ CallResult.raised e := by
  induction l with
  | nil => intro init; simp
  | cons t l ih =>
    intro init
    rw [List.foldlM_cons]
    have hb := h init t
    cases hbody : body init t with
    | returned v => rw [bind_returned]; exact ih v
    | raised e' =>
      rw [bind_raised]
      rw [hbody] at hb
      exact hb
    | outOfBounds => rw [bind_outOfBounds]; simp

/-- One step of the transition loop when both reads are in bounds and `q > 0`. -/
theorem transition_step_returned (x : List ℝ) (a q : ℝ) (t : ℕ) (ht1 : 1 ≤ t)
    (ht : t < x.length) (hq : 0 < q) (acc : ℝ) :
    (do
      let mean_xt := a * (← vector_read x (t - 1))
      pure (acc - (← dnorm (← vector_read x t) mean_xt (Real.sqrt q) true)))
      = CallResult.returned
          (acc - log_density (x.getD t 0) (a * x.getD (t - 1) 0) (Real.sqrt q)) := by
  rw [vector_read_of_lt x (t - 1) (by omega), bind_returned, vector_read_of_lt x t ht,
    bind_returned, dnorm_of_pos _ _ _ (Real.sqrt_pos.mpr hq), bind_returned,
    pure_eq_returned]

/-- One step of the observation loop when both reads are in bounds and `r > 0`. -/
theorem observation_step_returned (y x : List ℝ) (r : ℝ) (t : ℕ) (hty : t < y.length)
    (ht : t < x.length) (hr : 0 < r) (acc : ℝ) :
    (do
      pure (acc - (← dnorm (← vector_read y t) (← vector_read x t) (Real.sqrt r) true)))
      = CallResult.returned
          (acc - log_density (y.getD t 0) (x.getD t 0) (Real.sqrt r)) := by
  rw [vector_read_of_lt y t hty, bind_returned, vector_read_of_lt x t ht, bind_returned,
    dnorm_of_pos _ _ _ (Real.sqrt_pos.mpr hr), bind_returned, pure_eq_returned]

/-- The index range of the transition loop. -/
theorem Ico_one_length (n : ℕ) : Finset.Ico 1 (1 + (n - 1)) = Finset.Ico 1 n := by
  rcases Nat.eq_zero_or_pos n with h | h
  · simp [h]
  · congr 1; omega

/-- The known-variance joint evaluator returns the three accumulated sums whenever
the state path has at least `max 1 n` entries and every density term it evaluates
has a positive variance. -/
theorem joint_known_eq_sums (y : List ℝ) (a q r : ℝ) (x : List ℝ)
    (hx : max 1 y.length ≤ x.length) (hq : 2 ≤ y.length → 0 < q)
    (hr : 1 ≤ y.length → 0 < r) (hv : 0 < q / (1 - a * a)) :
    joint_estimation_known_variance y a q r x
      = CallResult.returned (0 - (∑ t in Finset.Ico 1 y.length,
              log_density (x.getD t 0) (a * x.getD (t - 1) 0) (Real.sqrt q))
          - (∑ t in Finset.range y.length,
              log_density (y.getD t 0) (x.getD t 0) (Real.sqrt r))
          - log_density (x.getD 0 0) 0 (Real.sqrt (q / (1 - a * a)))) := by
  have h1 : 1 ≤ x.length := le_trans (le_max_left _ _) hx
  have hn : y.length ≤ x.length := le_trans (le_max_right _ _) hx
  unfold joint_estimation_known_variance
  simp only [sqrt_real]
  rw [foldlM_range'_sub _
    (fun t => log_density (x.getD t 0) (a * x.getD (t - 1) 0) (Real.sqrt q)) (y.length - 1) 1 0]
  · rw [bind_returned, foldlM_range'_sub _
      (fun t => log_density (y.getD t 0) (x.getD t 0) (Real.sqrt r)) y.length 0]
    · rw [bind_returned, vector_read_of_lt x 0 (by omega), bind_returned,
        dnorm_of_pos _ _ _ (Real.sqrt_pos.mpr hv), bind_returned, pure_eq_returned,
        Ico_one_length]
      simp
    · intro t _ ht2 acc
      exact observation_step_returned y x r t (by omega) (by omega) (hr (by omega)) acc
  · intro t ht1 ht2 acc
    exact transition_step_returned x a q t ht1 (by omega) (hq (by omega)) acc

/-- A sequence of two steps neither of which signals the error `e` does not signal
`e`. -/
theorem bind_ne_raised {α β : Type} (r : CallResult α) (f : α → CallResult β)
    (e : DomainError) (hr : r ≠ CallResult.raised e) (hf : ∀ v, f v ≠ CallResult.raised e) :
    (r >>= f) ≠ CallResult.raised e := by
  cases r with
  | returned v => rw [bind_returned]; exact hf v
  | raised e' =>
    rw [bind_raised]
    intro h
    exact hr (congrArg CallResult.raised (CallResult.raised.inj h))
  | outOfBounds => rw [bind_outOfBounds]; simp

/-- The only domain error a call of the known-variance joint evaluator signals is
`InvalidScale`. -/
theorem joint_known_ne_raised (y : List ℝ) (a q r : ℝ) (x : List ℝ) (e : DomainError)
    (he : e ≠ DomainError.InvalidScale) :
    joint_estimation_known_variance y a q r x ≠ CallResult.raised e := by
  unfold joint_estimation_known_variance
  simp only [sqrt_real]
  refine bind_ne_raised _ _ e (foldlM_ne_raised _ e (fun acc t => ?_) _ _) (fun nll1 => ?_)
  · exact bind_ne_raised _ _ e (vector_read_ne_raised _ _ e) fun xp =>
      bind_ne_raised _ _ e (vector_read_ne_raised _ _ e) fun xt =>
        bind_ne_raised _ _ e (dnorm_ne_raised _ _ _ _ e he) fun d => by simp
  · refine bind_ne_raised _ _ e (foldlM_ne_raised _ e (fun acc t => ?_) _ _) (fun nll2 => ?_)
    · exact bind_ne_raised _ _ e (vector_read_ne_raised _ _ e) fun yt =>
        bind_ne_raised _ _ e (vector_read_ne_raised _ _ e) fun xt =>
          bind_ne_raised _ _ e (dnorm_ne_raised _ _ _ _ e he) fun d => by simp
    · exact bind_ne_raised _ _ e (vector_read_ne_raised _ _ e) fun x0 =>
        bind_ne_raised _ _ e (dnorm_ne_raised _ _ _ _ e he) fun d => by simp

/-! ## When the density computation signals `InvalidScale` -/

/-- The square root of a variance that is not positive is not positive. -/
theorem sqrt_nonpos_of_nonpos (v : ℝ) (hv : v ≤ 0) : Real.sqrt v ≤ 0 :=
  (Real.sqrt_eq_zero_of_nonpos hv).le

/-- With `n >= 2` and `q <= 0` the first transition term signals `InvalidScale`. -/
theorem joint_known_raised_of_q (y : List ℝ) (a q r : ℝ) (x : List ℝ)
    (hx : max 1 y.length ≤ x.length) (hn : 2 ≤ y.length) (hq : q ≤ 0) :
    joint_estimation_known_variance y a q r x
      = CallResult.raised DomainError.InvalidScale := by
  have hlen : y.length ≤ x.length := le_trans (le_max_right _ _) hx
  obtain ⟨k, hk⟩ : ∃ k, y.length - 1 = k + 1 := ⟨y.length - 2, by omega⟩
  unfold joint_estimation_known_variance
  simp only [sqrt_real, hk]
  rw [foldlM_range'_raised _ 1 k DomainError.InvalidScale 0, bind_raised]
  rw [vector_read_of_lt x (1 - 1) (by omega), bind_returned, vector_read_of_lt x 1 (by omega),
    bind_returned, dnorm_of_nonpos _ _ _ _ (sqrt_nonpos_of_nonpos q hq), bind_raised]

/-- With `n >= 1`, a transition loop that returns and `r <= 0` the first observation
term signals `InvalidScale`. -/
theorem joint_known_raised_of_r (y : List ℝ) (a q r : ℝ) (x : List ℝ)
    (hx : max 1 y.length ≤ x.length) (hq : 2 ≤ y.length → 0 < q) (hn : 1 ≤ y.length)
    (hr : r ≤ 0) :
    joint_estimation_known_variance y a q r x
      = CallResult.raised DomainError.InvalidScale := by
  have hlen : y.length ≤ x.length := le_trans (le_max_right _ _) hx
  obtain ⟨k, hk⟩ : ∃ k, y.length = k + 1 := ⟨y.length - 1, by omega⟩
  unfold joint_estimation_known_variance
  simp only [sqrt_real]
  rw [foldlM_range'_sub _
    (fun t => log_density (x.getD t 0) (a * x.getD (t - 1) 0) (Real.sqrt q)) (y.length - 1) 1 0]
  · rw [bind_returned]
    conv_lhs => rw [hk]
    rw [foldlM_range'_raised _ 0 k DomainError.InvalidScale _, bind_raised]
    rw [vector_read_of_lt y 0 (by omega), bind_returned, vector_read_of_lt x 0 (by omega),
      bind_returned, dnorm_of_nonpos _ _ _ _ (sqrt_nonpos_of_nonpos r hr), bind_raised]
  · intro t ht1 ht2 acc
    exact transition_step_returned x a q t ht1 (by omega) (hq (by omega)) acc

/-- With both loops returning and a prior variance `q/(1 - a*a) <= 0` the prior term
signals `InvalidScale`. -/
theorem joint_known_raised_of_prior (y : List ℝ) (a q r : ℝ) (x : List ℝ)
    (hx : max 1 y.length ≤ x.length) (hq : 2 ≤ y.length → 0 < q)
    (hr : 1 ≤ y.length → 0 < r) (hv : q / (1 - a * a) ≤ 0) :
    joint_estimation_known_variance y a q r x
      = CallResult.raised DomainError.InvalidScale := by
  have h1 : 1 ≤ x.length := le_trans (le_max_left _ _) hx
  have hlen : y.length ≤ x.length := le_trans (le_max_right _ _) hx
  unfold joint_estimation_known_variance
  simp only [sqrt_real]
  rw [foldlM_range'_sub _
    (fun t => log_density (x.getD t 0) (a * x.getD (t - 1) 0) (Real.sqrt q)) (y.length - 1) 1 0]
  · rw [bind_returned, foldlM_range'_sub _
      (fun t => log_density (y.getD t 0) (x.getD t 0) (Real.sqrt r)) y.length 0]
    · rw [bind_returned, vector_read_of_lt x 0 (by omega), bind_returned,
        dnorm_of_nonpos _ _ _ _ (sqrt_nonpos_of_nonpos _ hv), bind_raised]
    · intro t _ ht2 acc
      exact observation_step_returned y x r t (by omega) (by omega) (hr (by omega)) acc
  · intro t ht1 ht2 acc
    exact transition_step_returned x a q t ht1 (by omega) (hq (by omega)) acc

/-- For a state path of at least `max 1 n` entries, the known-variance joint
evaluator signals `InvalidScale` exactly when one of the density terms it evaluates
has a variance that is not positive. -/
theorem joint_known_raised_iff (y : List ℝ) (a q r : ℝ) (x : List ℝ)
    (hx : max 1 y.length ≤ x.length) :
    joint_estimation_known_variance y a q r x = CallResult.raised DomainError.InvalidScale
      ↔ (2 ≤ y.length ∧ q ≤ 0) ∨ (1 ≤ y.length ∧ r ≤ 0) ∨ q / (1 - a * a) ≤ 0 := by
  by_cases hA : 2 ≤ y.length ∧ q ≤ 0
  · exact ⟨fun _ => Or.inl hA, fun _ => joint_known_raised_of_q y a q r x hx hA.1 hA.2⟩
  · have hq : 2 ≤ y.length → 0 < q := fun h => not_le.mp fun hq => hA ⟨h, hq⟩
    by_cases hB : 1 ≤ y.length ∧ r ≤ 0
    · exact ⟨fun _ => Or.inr (Or.inl hB),
        fun _ => joint_known_raised_of_r y a q r x hx hq hB.1 hB.2⟩
    · have hr : 1 ≤ y.length → 0 < r := fun h => not_le.mp fun hr => hB ⟨h, hr⟩
      by_cases hC : q / (1 - a * a) ≤ 0
      · exact ⟨fun _ => Or.inr (Or.inr hC),
          fun _ => joint_known_raised_of_prior y a q r x hx hq hr hC⟩
      · constructor
        · intro h
          rw [joint_known_eq_sums y a q r x hx hq hr (not_le.mp hC)] at h
          exact CallResult.noConfusion h
        · rintro (h | h | h)
          · exact absurd h hA
          · exact absurd h hB
          · exact absurd h hC

/-- The log-variance joint evaluator computes what the known-variance one computes
at `q = exp log_q`, `r = exp log_r`. -/
theorem joint_estimation_eq_known (y : List ℝ) (a log_q log_r : ℝ) (x : List ℝ) :
    joint_estimation y a log_q log_r x
      = joint_estimation_known_variance y a (Real.exp log_q) (Real.exp log_r) x := rfl

/-- The Kalman marginal NLL of a single observation, for any positive innovation
variance. -/
theorem kalman_marginal_nll_singleton (a q r y0 : ℝ) (hS : 0 < q / (1 - a * a) + r) :
    kalman_marginal_nll [y0] a q r
      = -log_density y0 0 (Real.sqrt (q / (1 - a * a) + r)) := by
  rw [neg_log_density_sqrt _ _ _ hS]
  simp [kalman_marginal_nll, kalman_init, kalman_step]

/-! ## Claims of the specification -/

/-- C2: degenerate case `n = 1`.  For `|a| < 1`, `q > 0`, `r > 0` and a single
observation `y0`, the Kalman marginal NLL (as a function of `q`, `r`, and as the
objective function called with `log_q = log q`, `log_r = log r`) equals the single
observation-density term `-log_density(y0, 0, sqrt(q/(1 - a*a) + r))`. -/
theorem marginal_single_observation (a q r y0 : ℝ) (ha : |a| < 1) (hq : 0 < q)
    (hr : 0 < r) :
    kalman_marginal_nll [y0] a q r
        = -log_density y0 0 (Real.sqrt (q / (1 - a * a) + r))
      ∧ marginal_estimation [y0] a (Real.log q) (Real.log r)
        = -log_density y0 0 (Real.sqrt (q / (1 - a * a) + r)) := by
  have h1 := one_sub_sq_pos a ha
  have hS : 0 < q / (1 - a * a) + r := by positivity
  refine ⟨kalman_marginal_nll_singleton a q r y0 hS, ?_⟩
  simp only [marginal_estimation, exp_real, Real.exp_log hq, Real.exp_log hr]
  exact kalman_marginal_nll_singleton a q r y0 hS

/-- Witness of C2 at `a = 1/2`, `q = 1`, `r = 2`, `y0 = 3`. -/
theorem marginal_single_observation_witness :
    (|(1 / 2 : ℝ)| < 1 ∧ (0 : ℝ) < 1 ∧ (0 : ℝ) < 2)
      ∧ kalman_marginal_nll [(3 : ℝ)] (1 / 2) 1 2
        = -log_density 3 0 (Real.sqrt (1 / (1 - 1 / 2 * (1 / 2)) + 2))
      ∧ marginal_estimation [(3 : ℝ)] (1 / 2) (Real.log 1) (Real.log 2)
        = -log_density 3 0 (Real.sqrt (1 / (1 - 1 / 2 * (1 / 2)) + 2)) :=
  ⟨⟨by rw [abs_lt]; constructor <;> norm_num, by norm_num, by norm_num⟩,
    marginal_single_observation (1 / 2) 1 2 3 (by rw [abs_lt]; constructor <;> norm_num)
      (by norm_num) (by norm_num)⟩
/-- C3, counterexample: with `a = 2` (so `|a| >= 1`), `log_q = log_r = 0` and the
single observation `y = [1]`, the Kalman marginal evaluator does not fail with
`NonStationaryCoefficient`; it returns the real number
`0.5 * (log(2*pi*(2/3)) + 3/2)` (here `P_pred = -1/3` and `S = 2/3`). -/
theorem nonstationary_not_rejected :
    (1 : ℝ) ≤ |2|
      ∧ marginal_estimation_call [(1 : ℝ)] 2 0 0
        = CallResult.returned (0.5 * (Real.log (2 * Real.pi * (2 / 3)) + 3 / 2))
      ∧ marginal_estimation_call [(1 : ℝ)] 2 0 0
        ≠ CallResult.raised DomainError.NonStationaryCoefficient := by
  have hv : marginal_estimation_call [(1 : ℝ)] 2 0 0
      = CallResult.returned (0.5 * (Real.log (2 * Real.pi * (2 / 3)) + 3 / 2)) := by
    simp only [marginal_estimation_call, marginal_estimation, kalman_marginal_nll,
      kalman_init, kalman_step, List.foldl, exp_real, Real.exp_zero, log_real, M_PI_real]
    norm_num
  refine ⟨by norm_num, hv, ?_⟩
  rw [hv]
  exact fun h => CallResult.noConfusion h
/-- C3, amended: with `|a| >= 1` no evaluator fails with
`NonStationaryCoefficient` (the source has no stationarity guard), although the
denominator `1 - a*a` of the stationary variance is then `<= 0`.  When moreover
`1 - a*a` is not zero and `S = q/(1 - a*a) + r` is positive, the Kalman marginal
evaluator called with a single observation `y0` returns the real number
`0.5 * (log(2*pi*S) + y0^2 / S)`. -/
theorem nonstationary_never_raised (y : List ℝ) (a log_q log_r q r : ℝ) (x : List ℝ)
    (y0 : ℝ) (ha : 1 ≤ |a|) :
    1 - a * a ≤ 0
      ∧ marginal_estimation_call y a log_q log_r
        ≠ CallResult.raised DomainError.NonStationaryCoefficient
      ∧ joint_estimation_call y a log_q log_r x
        ≠ CallResult.raised DomainError.NonStationaryCoefficient
      ∧ joint_estimation_known_variance_call y a q r x
        ≠ CallResult.raised DomainError.NonStationaryCoefficient
      ∧ (1 - a * a ≠ 0 → 0 < Real.exp log_q / (1 - a * a) + Real.exp log_r →
          marginal_estimation_call [y0] a log_q log_r
            = CallResult.returned (0.5 * (Real.log (2 * Real.pi
                * (Real.exp log_q / (1 - a * a) + Real.exp log_r))
              + y0 ^ 2 / (Real.exp log_q / (1 - a * a) + Real.exp log_r)))) := by
  refine ⟨?_, ?_, ?_, ?_, ?_⟩
  · have h := sq_abs a
    nlinarith [abs_nonneg a]
  · simp [marginal_estimation_call]
  · rw [joint_estimation_call, joint_estimation_eq_known]
    exact joint_known_ne_raised _ _ _ _ _ _ (by decide)
  · exact joint_known_ne_raised _ _ _ _ _ _ (by decide)
  · intro _ hS
    simp only [marginal_estimation_call, marginal_estimation, exp_real]
    rw [kalman_marginal_nll_singleton _ _ _ _ hS, neg_log_density_sqrt _ _ _ hS]
    simp

/-- Witness of the amended C3 at `a = 2`, `log_q = log_r = 0`, `q = r = 1`,
`y = [1]`, `x = [0]`, `y0 = 1`. -/
theorem nonstationary_never_raised_witness :
    (1 : ℝ) ≤ |2|
      ∧ (1 - (2 : ℝ) * 2 ≤ 0
      ∧ marginal_estimation_call [(1 : ℝ)] 2 0 0
        ≠ CallResult.raised DomainError.NonStationaryCoefficient
      ∧ joint_estimation_call [(1 : ℝ)] 2 0 0 [0]
        ≠ CallResult.raised DomainError.NonStationaryCoefficient
      ∧ joint_estimation_known_variance_call [(1 : ℝ)] 2 1 1 [0]
        ≠ CallResult.raised DomainError.NonStationaryCoefficient
      ∧ (1 - (2 : ℝ) * 2 ≠ 0 → 0 < Real.exp 0 / (1 - (2 : ℝ) * 2) + Real.exp 0 →
          marginal_estimation_call [(1 : ℝ)] 2 0 0
            = CallResult.returned (0.5 * (Real.log (2 * Real.pi
                * (Real.exp 0 / (1 - (2 : ℝ) * 2) + Real.exp 0))
              + (1 : ℝ) ^ 2 / (Real.exp 0 / (1 - (2 : ℝ) * 2) + Real.exp 0))))) :=
  ⟨by norm_num, nonstationary_never_raised [1] 2 0 0 1 1 [0] 1 (by norm_num)⟩
/-- The known-variance joint evaluator on one observation and a one-point path,
when the two variances it uses are positive. -/
theorem joint_known_singleton (y0 x0 a q r : ℝ) (hr : 0 < r) (hv : 0 < q / (1 - a * a)) :
    joint_estimation_known_variance [y0] a q r [x0]
      = CallResult.returned (-log_density y0 x0 (Real.sqrt r)
          - log_density x0 0 (Real.sqrt (q / (1 - a * a)))) := by
  rw [joint_known_eq_sums [y0] a q r [x0] (by simp) (fun h => by simp at h) (fun _ => hr) hv]
  simp

/-- The known-variance joint evaluator on no observation and a non-empty path, when
the prior variance is positive. -/
theorem joint_known_nil (x0 : ℝ) (xs : List ℝ) (a q r : ℝ) (hv : 0 < q / (1 - a * a)) :
    joint_estimation_known_variance [] a q r (x0 :: xs)
      = CallResult.returned (-log_density x0 0 (Real.sqrt (q / (1 - a * a)))) := by
  rw [joint_known_eq_sums [] a q r (x0 :: xs) (by simp) (fun h => by simp at h)
    (fun h => by simp at h) hv]
  simp

/-- The log-density at standard deviation `1`. -/
theorem log_density_one (x mean : ℝ) :
    log_density x mean 1 = -0.5 * Real.log (2 * Real.pi) - 0.5 * (x - mean) ^ 2 := by
  simp [log_density]

/-- C4, counterexample: the known-variance joint evaluator does not fail with
`InvalidScale` on every non-positive variance.  With `q = -3`, `a = 2`, `r = 1`,
`y = [1]`, `x = [2]` (no transition term is evaluated and the prior variance
`q/(1 - a*a)` is `1`) it returns `log(2*pi) + 5/2`; with `r = -1`, `q = 1`, `a = 0`,
`y = []`, `x = [2]` (no observation term is evaluated) it returns
`0.5*log(2*pi) + 2`.  In both calls every scale passed to `dnorm` is positive. -/
theorem invalid_scale_not_rejected :
    ((-3 : ℝ) ≤ 0
        ∧ joint_estimation_known_variance_call [(1 : ℝ)] 2 (-3) 1 [2]
          = CallResult.returned (Real.log (2 * Real.pi) + 5 / 2)
        ∧ joint_estimation_known_variance_call [(1 : ℝ)] 2 (-3) 1 [2]
          ≠ CallResult.raised DomainError.InvalidScale)
      ∧ ((-1 : ℝ) ≤ 0
        ∧ joint_estimation_known_variance_call ([] : List ℝ) 0 1 (-1) [2]
          = CallResult.returned (0.5 * Real.log (2 * Real.pi) + 2)
        ∧ joint_estimation_known_variance_call ([] : List ℝ) 0 1 (-1) [2]
          ≠ CallResult.raised DomainError.InvalidScale) := by
  have h1 : joint_estimation_known_variance_call [(1 : ℝ)] 2 (-3) 1 [2]
      = CallResult.returned (Real.log (2 * Real.pi) + 5 / 2) := by
    have e : (-3 : ℝ) / (1 - 2 * 2) = 1 := by norm_num
    rw [joint_estimation_known_variance_call,
      joint_known_singleton 1 2 2 (-3) 1 (by norm_num) (by norm_num), e]
    simp only [Real.sqrt_one, log_density_one]
    congr 1
    ring
  have h2 : joint_estimation_known_variance_call ([] : List ℝ) 0 1 (-1) [2]
      = CallResult.returned (0.5 * Real.log (2 * Real.pi) + 2) := by
    have e : (1 : ℝ) / (1 - 0 * 0) = 1 := by norm_num
    rw [joint_estimation_known_variance_call, joint_known_nil 2 [] 0 1 (-1) (by norm_num), e]
    simp only [Real.sqrt_one, log_density_one]
    congr 1
    ring
  refine ⟨⟨by norm_num, h1, ?_⟩, ⟨by norm_num, h2, ?_⟩⟩
  · rw [h1]; exact fun h => CallResult.noConfusion h
  · rw [h2]; exact fun h => CallResult.noConfusion h

/-- C4, amended: the known-variance joint evaluator has no check of its own; the
density computation `dnorm` signals `InvalidScale` when it is called with a scale
that is not positive.  So, for a state path of at least `max(n, 1)` entries and
`a*a` different from `1`, a call fails with `InvalidScale` exactly when a density
term is evaluated with a variance that is not positive: `q <= 0` and `n >= 2`
(transition terms), or `r <= 0` and `n >= 1` (observation terms), or
`q/(1 - a*a) <= 0` (prior term).  In particular, for `|a| < 1` and `n >= 1` it
rejects every input with `q <= 0` or `r <= 0`; it does not reject a non-positive
variance that no density term uses.  The marginal and the log-variance joint
evaluator compute `q = exp(log_q) > 0` and `r = exp(log_r) > 0` themselves, so no
call of them has a non-positive variance. -/
theorem invalid_scale_raised_iff (y x : List ℝ) (a log_q log_r q r : ℝ)
    (hx : max 1 y.length ≤ x.length) (_ha1 : 1 - a * a ≠ 0) :
    (joint_estimation_known_variance_call y a q r x
          = CallResult.raised DomainError.InvalidScale
        ↔ (2 ≤ y.length ∧ q ≤ 0) ∨ (1 ≤ y.length ∧ r ≤ 0) ∨ q / (1 - a * a) ≤ 0)
      ∧ (|a| < 1 → 1 ≤ y.length → q ≤ 0 ∨ r ≤ 0 →
          joint_estimation_known_variance_call y a q r x
            = CallResult.raised DomainError.InvalidScale)
      ∧ (marginal_estimation y a log_q log_r
          = kalman_marginal_nll y a (Real.exp log_q) (Real.exp log_r)
        ∧ joint_estimation y a log_q log_r x
          = joint_estimation_known_variance y a (Real.exp log_q) (Real.exp log_r) x
        ∧ 0 < Real.exp log_q ∧ 0 < Real.exp log_r) := by
  have hiff := joint_known_raised_iff y a q r x hx
  refine ⟨hiff, ?_, rfl, rfl, Real.exp_pos _, Real.exp_pos _⟩
  intro ha hn hqr
  have h1 := one_sub_sq_pos a ha
  rcases hqr with hq | hr
  · exact hiff.mpr (Or.inr (Or.inr (div_nonpos_of_nonpos_of_nonneg hq h1.le)))
  · exact hiff.mpr (Or.inr (Or.inl ⟨hn, hr⟩))

/-- Witness of the amended C4 at `y = [1]`, `x = [2]`, `a = 1/2`, `q = -3`, `r = 1`:
the prior variance `q/(1 - a*a) = -4` is not positive and the call fails with
`InvalidScale`. -/
theorem invalid_scale_raised_iff_witness :
    (max 1 [(1 : ℝ)].length ≤ [(2 : ℝ)].length ∧ 1 - (1 / 2 : ℝ) * (1 / 2) ≠ 0)
      ∧ joint_estimation_known_variance_call [(1 : ℝ)] (1 / 2) (-3) 1 [2]
        = CallResult.raised DomainError.InvalidScale :=
  ⟨⟨by simp, by norm_num⟩,
    (invalid_scale_raised_iff [1] [2] (1 / 2) 0 0 (-3) 1 (by simp) (by norm_num)).2.1
      (by rw [abs_lt]; constructor <;> norm_num) (by simp) (Or.inl (by norm_num))⟩

/-- C5, counterexample: with the empty observation sequence the Kalman marginal
evaluator does not fail with `EmptySequence`; it returns `0` (here at `a = 1/2`,
`log_q = log_r = 0`). -/
theorem empty_sequence_not_rejected :
    ([] : List ℝ).length = 0
      ∧ marginal_estimation_call ([] : List ℝ) (1 / 2) 0 0 = CallResult.returned 0
      ∧ marginal_estimation_call ([] : List ℝ) (1 / 2) 0 0
        ≠ CallResult.raised DomainError.EmptySequence := by
  have h : marginal_estimation_call ([] : List ℝ) (1 / 2) 0 0 = CallResult.returned 0 := by
    simp [marginal_estimation_call, marginal_estimation, kalman_marginal_nll, kalman_init]
  refine ⟨rfl, h, ?_⟩
  rw [h]; exact fun h => CallResult.noConfusion h

/-- C5, amended: calling an evaluator with an observation sequence of length 0
does not fail with `EmptySequence`.  The Kalman marginal evaluator returns `0`
(the empty sum); the joint evaluators skip both loops and, given a state path with
at least one entry and a positive prior variance `q/(1 - a*a)`, return the prior
term `-log_density(x[0], 0, sqrt(q/(1 - a*a)))`; with an empty state path their
read of `x[0]` is out of bounds. -/
theorem empty_sequence_returns (a log_q log_r q r x0 : ℝ) (xs : List ℝ) :
    marginal_estimation_call ([] : List ℝ) a log_q log_r = CallResult.returned 0
      ∧ (0 < Real.exp log_q / (1 - a * a) →
          joint_estimation_call [] a log_q log_r (x0 :: xs)
            = CallResult.returned
                (-log_density x0 0 (Real.sqrt (Real.exp log_q / (1 - a * a)))))
      ∧ (0 < q / (1 - a * a) →
          joint_estimation_known_variance_call [] a q r (x0 :: xs)
            = CallResult.returned (-log_density x0 0 (Real.sqrt (q / (1 - a * a)))))
      ∧ joint_estimation_call [] a log_q log_r [] = CallResult.outOfBounds
      ∧ joint_estimation_known_variance_call [] a q r [] = CallResult.outOfBounds := by
  refine ⟨?_, ?_, ?_, ?_, ?_⟩
  · simp [marginal_estimation_call, marginal_estimation, kalman_marginal_nll, kalman_init]
  · intro hv
    rw [joint_estimation_call, joint_estimation_eq_known, joint_known_nil _ _ _ _ _ hv]
  · intro hv
    rw [joint_estimation_known_variance_call, joint_known_nil _ _ _ _ _ hv]
  · simp [joint_estimation_call, joint_estimation, vector_read]
  · simp [joint_estimation_known_variance_call, joint_estimation_known_variance, vector_read]

/-- Witness of the amended C5 at `a = 1/2`, `log_q = 0`, `q = 1`, `r = 2`,
`x = [3]`, where the prior variance is positive. -/
theorem empty_sequence_returns_witness :
    (0 < Real.exp 0 / (1 - (1 / 2 : ℝ) * (1 / 2)) ∧ (0 : ℝ) < 1 / (1 - 1 / 2 * (1 / 2)))
      ∧ joint_estimation_call [] (1 / 2) 0 0 [(3 : ℝ)]
        = CallResult.returned
            (-log_density 3 0 (Real.sqrt (Real.exp 0 / (1 - 1 / 2 * (1 / 2)))))
      ∧ joint_estimation_known_variance_call [] (1 / 2) 1 2 [(3 : ℝ)]
        = CallResult.returned (-log_density 3 0 (Real.sqrt (1 / (1 - 1 / 2 * (1 / 2))))) :=
  ⟨⟨by norm_num, by norm_num⟩,
    (empty_sequence_returns (1 / 2) 0 0 1 2 3 []).2.1 (by norm_num),
    (empty_sequence_returns (1 / 2) 0 0 1 2 3 []).2.2.1 (by norm_num)⟩

/-- C6: the log-variance joint evaluator returns exactly the value of the
known-variance joint evaluator at `q = exp(log_q)`, `r = exp(log_r)`, for every
numeric type, every `y`, `a`, `log_q`, `log_r` and every state path `x` (also when
a call does not return a value: then both calls fail in the same way). -/
theorem joint_estimation_delegates {T : Type} [Field T] [TMBScalar T] (y : List T)
    (a log_q log_r : T) (x : List T) :
    joint_estimation y a log_q log_r x
        = joint_estimation_known_variance y a (TMBScalar.exp log_q) (TMBScalar.exp log_r) x
      ∧ joint_estimation_call y a log_q log_r x
        = joint_estimation_known_variance_call y a (TMBScalar.exp log_q)
            (TMBScalar.exp log_r) x :=
  ⟨rfl, rfl⟩

/-- C9: joint evaluator with `n = 1`.  For `|a| < 1`, `q > 0`, `r > 0` and every
`y0`, `x0`, the transition loop `t = 1..n-1` is empty and the joint NLL is the
observation term plus the prior term,
`-log_density(y0, x0, sqrt r) - log_density(x0, 0, sqrt(q/(1 - a*a)))`, for the
known-variance evaluator and for the log-variance one called with `log q`, `log r`. -/
theorem joint_single_observation (a q r y0 x0 : ℝ) (ha : |a| < 1) (hq : 0 < q)
    (hr : 0 < r) :
    List.range' 1 ([y0].length - 1) = []
      ∧ joint_estimation_known_variance [y0] a q r [x0]
        = CallResult.returned (-log_density y0 x0 (Real.sqrt r)
            - log_density x0 0 (Real.sqrt (q / (1 - a * a))))
      ∧ joint_estimation [y0] a (Real.log q) (Real.log r) [x0]
        = CallResult.returned (-log_density y0 x0 (Real.sqrt r)
            - log_density x0 0 (Real.sqrt (q / (1 - a * a)))) := by
  have h1 := one_sub_sq_pos a ha
  have hv : 0 < q / (1 - a * a) := by positivity
  refine ⟨rfl, joint_known_singleton y0 x0 a q r hr hv, ?_⟩
  rw [joint_estimation_eq_known, Real.exp_log hq, Real.exp_log hr]
  exact joint_known_singleton y0 x0 a q r hr hv

/-- Witness of C9 at `a = 1/2`, `q = 1`, `r = 2`, `y0 = 3`, `x0 = 4`. -/
theorem joint_single_observation_witness :
    (|(1 / 2 : ℝ)| < 1 ∧ (0 : ℝ) < 1 ∧ (0 : ℝ) < 2)
      ∧ joint_estimation_known_variance [(3 : ℝ)] (1 / 2) 1 2 [4]
        = CallResult.returned (-log_density 3 4 (Real.sqrt 2)
            - log_density 4 0 (Real.sqrt (1 / (1 - 1 / 2 * (1 / 2)))))
      ∧ joint_estimation [(3 : ℝ)] (1 / 2) (Real.log 1) (Real.log 2) [4]
        = CallResult.returned (-log_density 3 4 (Real.sqrt 2)
            - log_density 4 0 (Real.sqrt (1 / (1 - 1 / 2 * (1 / 2))))) :=
  ⟨⟨by rw [abs_lt]; constructor <;> norm_num, by norm_num, by norm_num⟩,
    (joint_single_observation (1 / 2) 1 2 3 4 (by rw [abs_lt]; constructor <;> norm_num)
      (by norm_num) (by norm_num)).2⟩

/-! ## The Kalman recursion -/

/-- Before the first iteration the filter is in its initial state. -/
theorem kalman_state_at_zero (y : List ℝ) (a q r : ℝ) :
    kalman_state_at y a q r 0 = kalman_init a q := by
  simp [kalman_state_at]

/-- Iteration `t` of the loop takes the state at `t` to the state at `t + 1`,
reading `y[t]`. -/
theorem kalman_state_at_succ (y : List ℝ) (a q r : ℝ) (t : ℕ) (ht : t < y.length) :
    kalman_state_at y a q r (t + 1)
      = kalman_step a q r (kalman_state_at y a q r t) (y.getD t 0) := by
  unfold kalman_state_at
  rw [List.take_succ, List.foldl_append, List.getD_eq_getElem?_getD,
    List.getElem?_eq_getElem ht]
  simp

/-- The value returned is the `nll` field after the last iteration. -/
theorem kalman_marginal_nll_eq_state (y : List ℝ) (a q r : ℝ) :
    kalman_marginal_nll y a q r = (kalman_state_at y a q r y.length).nll := by
  simp [kalman_marginal_nll, kalman_state_at]

/-- One iteration keeps the predicted variance positive. -/
theorem kalman_step_P_pred_pos (a q r : ℝ) (hq : 0 < q) (hr : 0 < r) (s : KalmanState ℝ)
    (yt : ℝ) (hP : 0 < s.P_pred) : 0 < (kalman_step a q r s yt).P_pred := by
  have hS : 0 < s.P_pred + r := by positivity
  have hK : 1 - s.P_pred / (s.P_pred + r) = r / (s.P_pred + r) := by
    field_simp
  simp only [kalman_step, hK]
  have h1 : 0 ≤ a * a * (r / (s.P_pred + r) * s.P_pred) := by
    have : 0 ≤ a * a := mul_self_nonneg a
    positivity
  linarith

/-- With `|a| < 1`, `q > 0`, `r > 0` the predicted variance is positive at every
step. -/
theorem kalman_state_at_P_pred_pos (y : List ℝ) (a q r : ℝ) (ha : |a| < 1) (hq : 0 < q)
    (hr : 0 < r) (t : ℕ) (ht : t ≤ y.length) : 0 < (kalman_state_at y a q r t).P_pred := by
  induction t with
  | zero =>
    rw [kalman_state_at_zero]
    have := one_sub_sq_pos a ha
    simp only [kalman_init]
    positivity
  | succ t ih =>
    rw [kalman_state_at_succ y a q r t (by omega)]
    exact kalman_step_P_pred_pos a q r hq hr _ _ (ih (by omega))

/-- The `nll` field after one iteration. -/
theorem kalman_step_nll (a q r : ℝ) (s : KalmanState ℝ) (yt : ℝ) :
    (kalman_step a q r s yt).nll
      = s.nll + 0.5 * (Real.log (2 * Real.pi * (s.P_pred + r))
          + (yt - s.x_pred) ^ 2 / (s.P_pred + r)) := by
  simp [kalman_step]

/-- The accumulated `nll` at step `t` is the sum of the negative log-densities of
the first `t` one-step-ahead prediction residuals. -/
theorem kalman_state_at_nll (y : List ℝ) (a q r : ℝ) (ha : |a| < 1) (hq : 0 < q)
    (hr : 0 < r) (t : ℕ) (ht : t ≤ y.length) :
    (kalman_state_at y a q r t).nll
      = ∑ i in Finset.range t, -log_density (y.getD i 0) (kalman_state_at y a q r i).x_pred
          (Real.sqrt ((kalman_state_at y a q r i).P_pred + r)) := by
  induction t with
  | zero => simp [kalman_state_at_zero, kalman_init]
  | succ t ih =>
    have hP := kalman_state_at_P_pred_pos y a q r ha hq hr t (by omega)
    rw [Finset.sum_range_succ, ← ih (by omega), kalman_state_at_succ y a q r t (by omega),
      kalman_step_nll, neg_log_density_sqrt _ _ _ (by positivity)]

/-- C7: at every step `t` of the Kalman recursion run with `|a| < 1`, `q > 0`,
`r > 0`, the innovation variance `S = P_pred + r` is positive, the loop adds
`0.5*(log(2*pi*S) + (y[t] - x_pred)^2 / S)` to `nll`, and this contribution equals
`-log_density(y[t], x_pred, sqrt S)`; hence the returned marginal NLL is the sum
over `t = 0..n-1` of `-log_density(y[t], x_pred_t, sqrt(S_t))` for the sequences
`x_pred_t`, `S_t = P_pred_t + r` produced by the recursion. -/
theorem kalman_contribution_log_density (y : List ℝ) (a q r : ℝ) (ha : |a| < 1)
    (hq : 0 < q) (hr : 0 < r) :
    (∀ t, t < y.length →
        0 < (kalman_state_at y a q r t).P_pred + r
        ∧ (kalman_state_at y a q r (t + 1)).nll
          = (kalman_state_at y a q r t).nll
            + 0.5 * (Real.log (2 * Real.pi * ((kalman_state_at y a q r t).P_pred + r))
              + (y.getD t 0 - (kalman_state_at y a q r t).x_pred) ^ 2
                / ((kalman_state_at y a q r t).P_pred + r))
        ∧ 0.5 * (Real.log (2 * Real.pi * ((kalman_state_at y a q r t).P_pred + r))
              + (y.getD t 0 - (kalman_state_at y a q r t).x_pred) ^ 2
                / ((kalman_state_at y a q r t).P_pred + r))
          = -log_density (y.getD t 0) (kalman_state_at y a q r t).x_pred
              (Real.sqrt ((kalman_state_at y a q r t).P_pred + r)))
      ∧ kalman_marginal_nll y a q r
        = ∑ t in Finset.range y.length,
            -log_density (y.getD t 0) (kalman_state_at y a q r t).x_pred
              (Real.sqrt ((kalman_state_at y a q r t).P_pred + r))
      ∧ marginal_estimation y a (Real.log q) (Real.log r)
        = ∑ t in Finset.range y.length,
            -log_density (y.getD t 0) (kalman_state_at y a q r t).x_pred
              (Real.sqrt ((kalman_state_at y a q r t).P_pred + r)) := by
  have hsum := kalman_state_at_nll y a q r ha hq hr y.length le_rfl
  refine ⟨?_, ?_, ?_⟩
  · intro t ht
    have hP := kalman_state_at_P_pred_pos y a q r ha hq hr t (by omega)
    have hS : 0 < (kalman_state_at y a q r t).P_pred + r := by positivity
    refine ⟨hS, ?_, (neg_log_density_sqrt _ _ _ hS).symm⟩
    rw [kalman_state_at_succ y a q r t ht, kalman_step_nll]
  · rw [kalman_marginal_nll_eq_state, hsum]
  · simp only [marginal_estimation, exp_real, Real.exp_log hq, Real.exp_log hr]
    rw [kalman_marginal_nll_eq_state, hsum]

/-- Witness of C7 at `y = [3, 1]`, `a = 1/2`, `q = 1`, `r = 2`. -/
theorem kalman_contribution_log_density_witness :
    (|(1 / 2 : ℝ)| < 1 ∧ (0 : ℝ) < 1 ∧ (0 : ℝ) < 2)
      ∧ kalman_marginal_nll [(3 : ℝ), 1] (1 / 2) 1 2
        = ∑ t in Finset.range [(3 : ℝ), 1].length,
            -log_density ([(3 : ℝ), 1].getD t 0)
              (kalman_state_at [(3 : ℝ), 1] (1 / 2) 1 2 t).x_pred
              (Real.sqrt ((kalman_state_at [(3 : ℝ), 1] (1 / 2) 1 2 t).P_pred + 2)) :=
  ⟨⟨by rw [abs_lt]; constructor <;> norm_num, by norm_num, by norm_num⟩,
    (kalman_contribution_log_density [3, 1] (1 / 2) 1 2
      (by rw [abs_lt]; constructor <;> norm_num) (by norm_num) (by norm_num)).2.1⟩

/-! ## Closed form of the joint NLL -/

/-- The negative log-density with standard deviation `sqrt v`, for a variance
`v > 0`, split into its constant, scale and quadratic parts. -/
theorem neg_log_density_sqrt_split (x mean v : ℝ) (hv : 0 < v) :
    -log_density x mean (Real.sqrt v)
      = 0.5 * Real.log (2 * Real.pi) + 0.5 * Real.log v + (x - mean) ^ 2 / (2 * v) := by
  rw [neg_log_density_sqrt _ _ _ hv, Real.log_mul (by positivity) hv.ne']
  field_simp
  ring

/-- C10: closed form of the joint NLL.  For `n >= 1`, `y` and `x` of length `n` and
`|a| < 1`, `q > 0`, `r > 0`, the joint evaluator returns the sum of the three
accumulations of the spec's algorithm (transition terms for `t = 1..n-1`,
observation terms for `t = 0..n-1`, prior term), and this sum equals
`n*log(2*pi) + ((n-1)/2)*log q + (n/2)*log r + 0.5*log(q/(1 - a*a))
 + sum_{t=1}^{n-1} (x[t] - a*x[t-1])^2/(2*q) + sum_{t=0}^{n-1} (y[t] - x[t])^2/(2*r)
 + x[0]^2*(1 - a*a)/(2*q)`. -/
theorem joint_closed_form (y x : List ℝ) (a q r : ℝ) (hn : 1 ≤ y.length)
    (hx : x.length = y.length) (ha : |a| < 1) (hq : 0 < q) (hr : 0 < r) :
    joint_estimation_known_variance y a q r x
        = CallResult.returned ((∑ t in Finset.Ico 1 y.length,
              -log_density (x.getD t 0) (a * x.getD (t - 1) 0) (Real.sqrt q))
            + (∑ t in Finset.range y.length,
              -log_density (y.getD t 0) (x.getD t 0) (Real.sqrt r))
            + -log_density (x.getD 0 0) 0 (Real.sqrt (q / (1 - a * a))))
      ∧ (∑ t in Finset.Ico 1 y.length,
              -log_density (x.getD t 0) (a * x.getD (t - 1) 0) (Real.sqrt q))
            + (∑ t in Finset.range y.length,
              -log_density (y.getD t 0) (x.getD t 0) (Real.sqrt r))
            + -log_density (x.getD 0 0) 0 (Real.sqrt (q / (1 - a * a)))
        = (y.length : ℝ) * Real.log (2 * Real.pi)
            + (((y.length : ℝ) - 1) / 2) * Real.log q
            + ((y.length : ℝ) / 2) * Real.log r
            + 0.5 * Real.log (q / (1 - a * a))
            + (∑ t in Finset.Ico 1 y.length,
                (x.getD t 0 - a * x.getD (t - 1) 0) ^ 2 / (2 * q))
            + (∑ t in Finset.range y.length, (y.getD t 0 - x.getD t 0) ^ 2 / (2 * r))
            + (x.getD 0 0) ^ 2 * (1 - a * a) / (2 * q) := by
  have h1 := one_sub_sq_pos a ha
  have hv : 0 < q / (1 - a * a) := by positivity
  constructor
  · rw [joint_known_eq_sums y a q r x (by rw [hx]; exact (max_eq_right hn).le)
      (fun _ => hq) (fun _ => hr) hv]
    congr 1
    simp only [Finset.sum_neg_distrib]
    ring
  · simp only [neg_log_density_sqrt_split _ _ _ hq, neg_log_density_sqrt_split _ _ _ hr,
      neg_log_density_sqrt_split _ _ _ hv, Finset.sum_add_distrib, Finset.sum_const,
      Nat.card_Ico, Finset.card_range, nsmul_eq_mul, Nat.cast_sub hn, Nat.cast_one]
    field_simp
    ring

/-- Witness of C10 at `y = [3, 1]`, `x = [4, 2]`, `a = 1/2`, `q = 1`, `r = 2`. -/
theorem joint_closed_form_witness :
    (1 ≤ [(3 : ℝ), 1].length ∧ [(4 : ℝ), 2].length = [(3 : ℝ), 1].length
        ∧ |(1 / 2 : ℝ)| < 1 ∧ (0 : ℝ) < 1 ∧ (0 : ℝ) < 2)
      ∧ joint_estimation_known_variance [(3 : ℝ), 1] (1 / 2) 1 2 [4, 2]
        = CallResult.returned ((∑ t in Finset.Ico 1 [(3 : ℝ), 1].length,
              -log_density ([(4 : ℝ), 2].getD t 0) (1 / 2 * [(4 : ℝ), 2].getD (t - 1) 0)
                (Real.sqrt 1))
            + (∑ t in Finset.range [(3 : ℝ), 1].length,
              -log_density ([(3 : ℝ), 1].getD t 0) ([(4 : ℝ), 2].getD t 0) (Real.sqrt 2))
            + -log_density ([(4 : ℝ), 2].getD 0 0) 0
                (Real.sqrt (1 / (1 - 1 / 2 * (1 / 2))))) :=
  ⟨⟨by simp, rfl, by rw [abs_lt]; constructor <;> norm_num, by norm_num, by norm_num⟩,
    (joint_closed_form [3, 1] [4, 2] (1 / 2) 1 2 (by simp) rfl
      (by rw [abs_lt]; constructor <;> norm_num) (by norm_num) (by norm_num)).1⟩

/-! ## The Gaussian density -/

/-- The exponential of `log_density` with standard deviation `sqrt v`, `v > 0`, is
the Gaussian probability density function with mean `mean` and variance `v`. -/
theorem exp_log_density_sqrt (x mean v : ℝ) (hv : 0 < v) :
    Real.exp (log_density x mean (Real.sqrt v))
      = ProbabilityTheory.gaussianPDFReal mean ⟨v, hv.le⟩ x := by
  have h := neg_log_density_sqrt x mean v hv
  have h2 : log_density x mean (Real.sqrt v)
      = -Real.log (Real.sqrt (2 * Real.pi * v)) + -(x - mean) ^ 2 / (2 * v) := by
    rw [Real.log_sqrt (by positivity)]
    have h3 : log_density x mean (Real.sqrt v)
        = -(0.5 * (Real.log (2 * Real.pi * v) + (x - mean) ^ 2 / v)) := by
      rw [← h, neg_neg]
    rw [h3]
    field_simp
    ring
  rw [h2, Real.exp_add, Real.exp_neg, Real.exp_log (by positivity)]
  rfl

/-- C8: for every mean and every `sd > 0`, the density whose logarithm is
`log_density(x, mean, sd)` integrates to 1 over the real line. -/
theorem log_density_integral_one (mean sd : ℝ) (hsd : 0 < sd) :
    ∫ x : ℝ, Real.exp (log_density x mean sd) = 1 := by
  have hv : 0 < sd ^ 2 := by positivity
  have hs : Real.sqrt (sd ^ 2) = sd := Real.sqrt_sq hsd.le
  have h : ∀ x : ℝ, Real.exp (log_density x mean sd)
      = ProbabilityTheory.gaussianPDFReal mean ⟨sd ^ 2, hv.le⟩ x := by
    intro x
    rw [← exp_log_density_sqrt x mean (sd ^ 2) hv, hs]
  simp only [h]
  apply ProbabilityTheory.integral_gaussianPDFReal_eq_one
  intro h0
  have : sd ^ 2 = 0 := congrArg NNReal.toReal h0
  exact hv.ne' this

/-- Witness of C8 at `mean = 3`, `sd = 2`. -/
theorem log_density_integral_one_witness :
    (0 : ℝ) < 2 ∧ ∫ x : ℝ, Real.exp (log_density x 3 2) = 1 :=
  ⟨by norm_num, log_density_integral_one 3 2 (by norm_num)⟩

/-! ## Marginalisation of the latent path -/

/-- Product of a normal prior on `x` with a normal observation of `a*x`: the sum of
the two log-densities is the log-density of the observation under its marginal law
plus the log-density of `x` under the posterior. -/
theorem log_density_update (a m P q x z : ℝ) (hP : 0 < P) (hq : 0 < q) :
    log_density x m (Real.sqrt P) + log_density z (a * x) (Real.sqrt q)
      = log_density z (a * m) (Real.sqrt (a * a * P + q))
        + log_density x (m + a * P / (a * a * P + q) * (z - a * m))
            (Real.sqrt (P * q / (a * a * P + q))) := by
  have hS : 0 < a * a * P + q := by
    have : 0 ≤ a * a := mul_self_nonneg a
    positivity
  have hV : 0 < P * q / (a * a * P + q) := by positivity
  have e1 := neg_log_density_sqrt_split x m P hP
  have e2 := neg_log_density_sqrt_split z (a * x) q hq
  have e3 := neg_log_density_sqrt_split z (a * m) (a * a * P + q) hS
  have e4 := neg_log_density_sqrt_split x (m + a * P / (a * a * P + q) * (z - a * m))
    (P * q / (a * a * P + q)) hV
  have hlog : Real.log (P * q / (a * a * P + q))
      = Real.log P + Real.log q - Real.log (a * a * P + q) := by
    rw [Real.log_div (by positivity) hS.ne', Real.log_mul hP.ne' hq.ne']
  have hquad : (x - m) ^ 2 / (2 * P) + (z - a * x) ^ 2 / (2 * q)
      = (z - a * m) ^ 2 / (2 * (a * a * P + q))
        + (x - (m + a * P / (a * a * P + q) * (z - a * m))) ^ 2
            / (2 * (P * q / (a * a * P + q))) := by
    field_simp
    ring
  rw [hlog] at e4
  linarith

/-- The density `exp(log_density(x, mean, sqrt v))`, `v > 0`, has Lebesgue integral
1 over `x`. -/
theorem lintegral_exp_log_density (mean v : ℝ) (hv : 0 < v) :
    ∫⁻ x : ℝ, ENNReal.ofReal (Real.exp (log_density x mean (Real.sqrt v))) = 1 := by
  simp only [exp_log_density_sqrt _ mean v hv]
  apply ProbabilityTheory.lintegral_gaussianPDFReal_eq_one
  intro h0
  have : v = 0 := congrArg NNReal.toReal h0
  exact hv.ne' this

/-- Integrating the state `x` out of the product of its normal prior, a normal
observation of `a*x`, and a factor that does not depend on `x`. -/
theorem lintegral_exp_update (a m P q z c : ℝ) (hP : 0 < P) (hq : 0 < q) :
    ∫⁻ x : ℝ, ENNReal.ofReal (Real.exp
        (log_density x m (Real.sqrt P) + log_density z (a * x) (Real.sqrt q) + c))
      = ENNReal.ofReal (Real.exp (log_density z (a * m) (Real.sqrt (a * a * P + q)) + c)) := by
  have hS : 0 < a * a * P + q := by
    have : 0 ≤ a * a := mul_self_nonneg a
    positivity
  have hV : 0 < P * q / (a * a * P + q) := by positivity
  have h : ∀ x : ℝ, ENNReal.ofReal (Real.exp
        (log_density x m (Real.sqrt P) + log_density z (a * x) (Real.sqrt q) + c))
      = ENNReal.ofReal (Real.exp (log_density z (a * m) (Real.sqrt (a * a * P + q)) + c))
        * ENNReal.ofReal (Real.exp
            (log_density x (m + a * P / (a * a * P + q) * (z - a * m))
              (Real.sqrt (P * q / (a * a * P + q))))) := by
    intro x
    rw [← ENNReal.ofReal_mul (Real.exp_pos _).le, ← Real.exp_add,
      log_density_update a m P q x z hP hq]
    congr 2
    ring
  simp only [h]
  rw [MeasureTheory.lintegral_const_mul' _ _ ENNReal.ofReal_ne_top,
    lintegral_exp_log_density _ _ hV, mul_one]

/-- Integrating the state `x0` out of its normal prior times the density of the
continuation of the path gives the joint density of the continuation under the
predicted prior. -/
theorem lintegral_path_log_density (a q r m P : ℝ) (hP : 0 < P) (hq : 0 < q)
    (ys xs : List ℝ) :
    ∫⁻ x0 : ℝ, ENNReal.ofReal (Real.exp
        (log_density x0 m (Real.sqrt P) + path_log_density a q r x0 ys xs))
      = ENNReal.ofReal (Real.exp (joint_log_density a q r (a * m) (a * a * P + q) ys xs)) := by
  cases ys with
  | nil =>
    simp only [path_log_density, joint_log_density, add_zero, Real.exp_zero,
      ENNReal.ofReal_one]
    exact lintegral_exp_log_density m P hP
  | cons y1 ys =>
    cases xs with
    | nil =>
      simp only [path_log_density, joint_log_density, add_zero, Real.exp_zero,
        ENNReal.ofReal_one]
      exact lintegral_exp_log_density m P hP
    | cons x1 xs =>
      simp only [path_log_density, joint_log_density, sqrt_real, ← add_assoc]
      have h := lintegral_exp_update a m P q x1
        (log_density y1 x1 (Real.sqrt r) + path_log_density a q r x1 ys xs) hP hq
      simp only [← add_assoc] at h
      exact h

/-- The accumulated `nll` only adds up: starting the loop from `nll = c` returns
`c` plus what it returns from `nll = 0`. -/
theorem kalman_foldl_nll (a q r : ℝ) (ys : List ℝ) (m P c : ℝ) :
    (ys.foldl (kalman_step a q r) ⟨m, P, c⟩).nll
      = c + (ys.foldl (kalman_step a q r) ⟨m, P, 0⟩).nll := by
  induction ys generalizing m P c with
  | nil => simp
  | cons y ys ih =>
    simp only [List.foldl_cons, kalman_step]
    rw [ih, ih _ _ (0 + _)]
    ring

/-- The log-density is continuous in the point and the mean. -/
theorem continuous_log_density {X : Type} [TopologicalSpace X] (f g : X → ℝ) (sd : ℝ)
    (hf : Continuous f) (hg : Continuous g) :
    Continuous (fun p => log_density (f p) (g p) sd) := by
  unfold log_density
  fun_prop

/-- The log-density of the continuation of a path is continuous in the previous
state and the path. -/
theorem continuous_path_log_density (a q r : ℝ) (n : ℕ) (ys : List ℝ) :
    Continuous (fun p : ℝ × (Fin n → ℝ) => path_log_density a q r p.1 ys (List.ofFn p.2)) := by
  induction n generalizing ys with
  | zero =>
    cases ys <;> simp [path_log_density, continuous_const]
  | succ n ih =>
    cases ys with
    | nil => simp [path_log_density, continuous_const]
    | cons y1 ys =>
      simp only [List.ofFn_succ, path_log_density]
      refine Continuous.add (Continuous.add ?_ ?_) ?_
      · exact continuous_log_density _ _ _ (by fun_prop) (by fun_prop)
      · exact continuous_log_density _ _ _ (by fun_prop) (by fun_prop)
      · exact (ih ys).comp (f := fun p : ℝ × (Fin (n + 1) → ℝ) => (p.2 0, fun i => p.2 i.succ))
          (by fun_prop)

/-- The measurement update of the Kalman filter: the prior on the state times the
density of the observation is the predictive density of the observation times the
filtered density of the state. -/
theorem log_density_filter (m P r x y : ℝ) (hP : 0 < P) (hr : 0 < r) :
    log_density x m (Real.sqrt P) + log_density y x (Real.sqrt r)
      = log_density y m (Real.sqrt (P + r))
        + log_density x (m + P / (P + r) * (y - m))
            (Real.sqrt ((1 - P / (P + r)) * P)) := by
  have h := log_density_update 1 m P r x y hP hr
  have hS : 0 < P + r := by positivity
  have e : (1 - P / (P + r)) * P = P * r / (1 * 1 * P + r) := by
    field_simp
    ring
  rw [e]
  simpa using h

/-- The filtered variance is positive. -/
theorem filtered_variance_pos (P r : ℝ) (hP : 0 < P) (hr : 0 < r) :
    0 < (1 - P / (P + r)) * P := by
  have hS : 0 < P + r := by positivity
  have e : (1 - P / (P + r)) * P = P * r / (P + r) := by
    field_simp
    ring
  rw [e]
  positivity

/-- The marginalisation identity for an arbitrary normal prior on the first state:
integrating the path out of the joint density gives the exponential of minus the
`nll` the Kalman loop returns when started from the same prior. -/
theorem lintegral_joint_log_density (a q r : ℝ) (hq : 0 < q) (hr : 0 < r) (n : ℕ) :
    ∀ (ys : List ℝ), ys.length = n → ∀ (m P : ℝ), 0 < P →
      ∫⁻ x : Fin n → ℝ,
          ENNReal.ofReal (Real.exp (joint_log_density a q r m P ys (List.ofFn x)))
        = ENNReal.ofReal
            (Real.exp (-(ys.foldl (kalman_step a q r) ⟨m, P, 0⟩).nll)) := by
  induction n with
  | zero =>
    intro ys hys m P _
    have : ys = [] := List.length_eq_zero.mp hys
    subst this
    have hvol : (MeasureTheory.volume : MeasureTheory.Measure (Fin 0 → ℝ)) Set.univ = 1 := by
      rw [MeasureTheory.volume_pi, ← Set.pi_univ Set.univ, MeasureTheory.Measure.pi_pi]
      simp
    simp [joint_log_density, hvol]
  | succ n ih =>
    intro ys hys m P hP
    cases ys with
    | nil => simp at hys
    | cons y0 ys =>
      have hlen : ys.length = n := by simpa using hys
      have hS : 0 < P + r := by positivity
      -- split the first coordinate off
      have hmp := MeasureTheory.volume_preserving_piFinSuccAbove (fun _ : Fin (n + 1) => ℝ) 0
      have hsplit := hmp.lintegral_comp_emb (MeasurableEquiv.measurableEmbedding _)
        (fun p : ℝ × (Fin n → ℝ) => ENNReal.ofReal (Real.exp
          (log_density p.1 m (Real.sqrt P) + log_density y0 p.1 (Real.sqrt r)
            + path_log_density a q r p.1 ys (List.ofFn p.2))))
      have hG : ∀ x : Fin (n + 1) → ℝ,
          ENNReal.ofReal (Real.exp (joint_log_density a q r m P (y0 :: ys) (List.ofFn x)))
            = (fun p : ℝ × (Fin n → ℝ) => ENNReal.ofReal (Real.exp
                (log_density p.1 m (Real.sqrt P) + log_density y0 p.1 (Real.sqrt r)
                  + path_log_density a q r p.1 ys (List.ofFn p.2))))
              (MeasurableEquiv.piFinSuccAbove (fun _ : Fin (n + 1) => ℝ) 0 x) := by
        intro x
        simp [List.ofFn_succ, joint_log_density]
        rfl
      have hmeas : Measurable (fun p : ℝ × (Fin n → ℝ) => ENNReal.ofReal (Real.exp
          (log_density p.1 m (Real.sqrt P) + log_density y0 p.1 (Real.sqrt r)
            + path_log_density a q r p.1 ys (List.ofFn p.2)))) := by
        apply ENNReal.measurable_ofReal.comp
        apply Real.measurable_exp.comp
        apply Continuous.measurable
        exact ((continuous_log_density _ _ _ continuous_fst continuous_const).add
          (continuous_log_density _ _ _ continuous_const continuous_fst)).add
          (continuous_path_log_density a q r n ys)
      -- integrate the first state out
      have hinner : ∀ x' : Fin n → ℝ,
          ∫⁻ x0 : ℝ, ENNReal.ofReal (Real.exp
              (log_density x0 m (Real.sqrt P) + log_density y0 x0 (Real.sqrt r)
                + path_log_density a q r x0 ys (List.ofFn x')))
            = ENNReal.ofReal (Real.exp (log_density y0 m (Real.sqrt (P + r))))
              * ENNReal.ofReal (Real.exp (joint_log_density a q r
                  (a * (m + P / (P + r) * (y0 - m)))
                  (a * a * ((1 - P / (P + r)) * P) + q) ys (List.ofFn x'))) := by
        intro x'
        have h : ∀ x0 : ℝ, ENNReal.ofReal (Real.exp
              (log_density x0 m (Real.sqrt P) + log_density y0 x0 (Real.sqrt r)
                + path_log_density a q r x0 ys (List.ofFn x')))
            = ENNReal.ofReal (Real.exp (log_density y0 m (Real.sqrt (P + r))))
              * ENNReal.ofReal (Real.exp
                  (log_density x0 (m + P / (P + r) * (y0 - m))
                      (Real.sqrt ((1 - P / (P + r)) * P))
                    + path_log_density a q r x0 ys (List.ofFn x'))) := by
          intro x0
          rw [← ENNReal.ofReal_mul (Real.exp_pos _).le, ← Real.exp_add,
            log_density_filter m P r x0 y0 hP hr, add_assoc]
        simp only [h]
        rw [MeasureTheory.lintegral_const_mul' _ _ ENNReal.ofReal_ne_top,
          lintegral_path_log_density a q r _ _ (filtered_variance_pos P r hP hr) hq]
      have hPn : 0 < a * a * ((1 - P / (P + r)) * P) + q := by
        have h1 := filtered_variance_pos P r hP hr
        have h2 : 0 ≤ a * a := mul_self_nonneg a
        positivity
      rw [MeasureTheory.lintegral_congr hG, hsplit, MeasureTheory.Measure.volume_eq_prod,
        MeasureTheory.lintegral_prod_symm _ hmeas.aemeasurable]
      simp only [hinner]
      rw [MeasureTheory.lintegral_const_mul' _ _ ENNReal.ofReal_ne_top, ih ys hlen _ _ hPn,
        ← ENNReal.ofReal_mul (Real.exp_pos _).le, ← Real.exp_add]
      congr 2
      simp only [List.foldl_cons, kalman_step]
      conv_rhs => rw [kalman_foldl_nll]
      have hc := neg_log_density_sqrt y0 m (P + r) hS
      simp only [log_real, M_PI_real, zero_add]
      linarith

/-- The log-density of the continuation of a path as a sum over the time steps. -/
theorem path_log_density_eq_sum (a q r : ℝ) (ys : List ℝ) :
    ∀ (x0 : ℝ) (xs : List ℝ), xs.length = ys.length →
      path_log_density a q r x0 ys xs
        = ∑ k in Finset.range ys.length,
            (log_density (xs.getD k 0) (a * (x0 :: xs).getD k 0) (Real.sqrt q)
              + log_density (ys.getD k 0) (xs.getD k 0) (Real.sqrt r)) := by
  induction ys with
  | nil => intro x0 xs _; simp [path_log_density]
  | cons y1 ys ih =>
    intro x0 xs hxs
    cases xs with
    | nil => simp at hxs
    | cons x1 xs =>
      have hlen : xs.length = ys.length := by simpa using hxs
      rw [List.length_cons, Finset.sum_range_succ']
      simp only [path_log_density, sqrt_real, ih x1 xs hlen, List.getD_cons_succ,
        List.getD_cons_zero]
      ring

/-- For a state path of the length of `y`, `n >= 1`, and positive variances, the
known-variance joint evaluator returns minus the joint log-density under the
stationary prior. -/
theorem joint_known_eq_joint_log_density (y x : List ℝ) (a q r : ℝ) (hn : 1 ≤ y.length)
    (hx : x.length = y.length) (hq : 0 < q) (hr : 0 < r) (hv : 0 < q / (1 - a * a)) :
    joint_estimation_known_variance y a q r x
      = CallResult.returned (-joint_log_density a q r 0 (q / (1 - a * a)) y x) := by
  rw [joint_known_eq_sums y a q r x (by rw [hx]; exact (max_eq_right hn).le)
    (fun _ => hq) (fun _ => hr) hv]
  cases y with
  | nil => simp at hn
  | cons y0 ys =>
    cases x with
    | nil => simp at hx
    | cons x0 xs =>
      have hlen : xs.length = ys.length := by simpa using hx
      rw [List.length_cons, Finset.sum_Ico_eq_sum_range, Finset.sum_range_succ']
      simp only [joint_log_density, sqrt_real, path_log_density_eq_sum a q r ys x0 xs hlen,
        List.getD_cons_succ, List.getD_cons_zero, Finset.sum_add_distrib,
        Nat.add_sub_cancel, Nat.add_sub_cancel_left, Nat.add_comm 1]
      congr 1
      ring

/-- The joint log-density is continuous in the state path. -/
theorem continuous_joint_log_density (a q r m P : ℝ) (n : ℕ) (ys : List ℝ) :
    Continuous (fun x : Fin n → ℝ => joint_log_density a q r m P ys (List.ofFn x)) := by
  cases n with
  | zero => cases ys <;> simp [joint_log_density, continuous_const]
  | succ n =>
    cases ys with
    | nil => simp [joint_log_density, continuous_const]
    | cons y0 ys =>
      simp only [List.ofFn_succ, joint_log_density]
      refine Continuous.add (Continuous.add ?_ ?_) ?_
      · exact continuous_log_density _ _ _ (by fun_prop) (by fun_prop)
      · exact continuous_log_density _ _ _ (by fun_prop) (by fun_prop)
      · exact (continuous_path_log_density a q r n ys).comp
          (f := fun x : Fin (n + 1) → ℝ => (x 0, fun i => x i.succ)) (by fun_prop)

/-- For a state path of the length of `y`, `n >= 1`, and `|a| < 1`, `q > 0`,
`r > 0`, `state_augmented_nll` is the value the known-variance joint evaluator
returns, minus the joint log-density. -/
theorem state_augmented_nll_eq (y : List ℝ) (a q r : ℝ) (hn : 1 ≤ y.length)
    (ha : |a| < 1) (hq : 0 < q) (hr : 0 < r) (x : Fin y.length → ℝ) :
    joint_estimation_known_variance y a q r (List.ofFn x)
        = CallResult.returned (state_augmented_nll y a q r x)
      ∧ state_augmented_nll y a q r x
        = -joint_log_density a q r 0 (q / (1 - a * a)) y (List.ofFn x) := by
  have h1 := one_sub_sq_pos a ha
  have hv : 0 < q / (1 - a * a) := by positivity
  have h := joint_known_eq_joint_log_density y (List.ofFn x) a q r hn (by simp) hq hr hv
  simp [state_augmented_nll, h]

/-- The marginalisation identity for every `n >= 1`: integrating the latent path
out of the joint density gives the Kalman marginal likelihood. -/
theorem integral_exp_neg_state_augmented_nll (y : List ℝ) (a q r : ℝ) (hn : 1 ≤ y.length)
    (ha : |a| < 1) (hq : 0 < q) (hr : 0 < r) :
    ∫ x : Fin y.length → ℝ, Real.exp (-state_augmented_nll y a q r x)
      = Real.exp (-kalman_marginal_nll y a q r) := by
  have h1 := one_sub_sq_pos a ha
  have hP : 0 < q / (1 - a * a) := by positivity
  have hJ : ∀ x : Fin y.length → ℝ, Real.exp (-state_augmented_nll y a q r x)
      = Real.exp (joint_log_density a q r 0 (q / (1 - a * a)) y (List.ofFn x)) := by
    intro x
    rw [(state_augmented_nll_eq y a q r hn ha hq hr x).2, neg_neg]
  simp only [hJ]
  rw [MeasureTheory.integral_eq_lintegral_of_nonneg_ae
      (Filter.Eventually.of_forall fun x => (Real.exp_pos _).le)
      (Real.continuous_exp.comp
        (continuous_joint_log_density a q r 0 (q / (1 - a * a)) y.length y)).aestronglyMeasurable,
    lintegral_joint_log_density a q r hq hr y.length y rfl 0 _ hP,
    ENNReal.toReal_ofReal (Real.exp_pos _).le]
  rfl

/-- C1: for `|a| < 1`, `q > 0`, `r > 0` and every observation sequence `y` of
length `n >= 2`, the Kalman marginal NLL equals the result of marginalising the
latent path out of the joint NLL: for every path `x` in `R^n` the joint evaluators
(known-variance, and log-variance called with `log q`, `log r`) return
`state_augmented_nll(y, a, q, r, x)`, and the integral over all `x` in `R^n` of
`exp(-state_augmented_nll(y, a, q, r, x))` equals `exp(-kalman_marginal_nll(y, a, q, r))`,
which is `exp` of minus the value `marginal_estimation` returns with
`q = exp(log_q)`, `r = exp(log_r)`. -/
theorem marginalization_identity (y : List ℝ) (a q r : ℝ) (hn : 2 ≤ y.length)
    (ha : |a| < 1) (hq : 0 < q) (hr : 0 < r) :
    (∀ x : Fin y.length → ℝ,
        joint_estimation_known_variance y a q r (List.ofFn x)
          = CallResult.returned (state_augmented_nll y a q r x))
      ∧ (∀ x : Fin y.length → ℝ,
        joint_estimation y a (Real.log q) (Real.log r) (List.ofFn x)
          = CallResult.returned (state_augmented_nll y a q r x))
      ∧ ∫ x : Fin y.length → ℝ, Real.exp (-state_augmented_nll y a q r x)
        = Real.exp (-kalman_marginal_nll y a q r)
      ∧ ∫ x : Fin y.length → ℝ, Real.exp (-state_augmented_nll y a q r x)
        = Real.exp (-marginal_estimation y a (Real.log q) (Real.log r)) := by
  have h1 : 1 ≤ y.length := by omega
  have hI := integral_exp_neg_state_augmented_nll y a q r h1 ha hq hr
  refine ⟨fun x => (state_augmented_nll_eq y a q r h1 ha hq hr x).1, fun x => ?_, hI, ?_⟩
  · rw [joint_estimation_eq_known, Real.exp_log hq, Real.exp_log hr]
    exact (state_augmented_nll_eq y a q r h1 ha hq hr x).1
  · simp only [marginal_estimation, exp_real, Real.exp_log hq, Real.exp_log hr]
    exact hI

/-- Witness of C1 at `y = [3, 1]`, `a = 1/2`, `q = 1`, `r = 2`. -/
theorem marginalization_identity_witness :
    (2 ≤ [(3 : ℝ), 1].length ∧ |(1 / 2 : ℝ)| < 1 ∧ (0 : ℝ) < 1 ∧ (0 : ℝ) < 2)
      ∧ ∫ x : Fin [(3 : ℝ), 1].length → ℝ,
          Real.exp (-state_augmented_nll [(3 : ℝ), 1] (1 / 2) 1 2 x)
        = Real.exp (-kalman_marginal_nll [(3 : ℝ), 1] (1 / 2) 1 2) :=
  ⟨⟨by simp, by rw [abs_lt]; constructor <;> norm_num, by norm_num, by norm_num⟩,
    (marginalization_identity [3, 1] (1 / 2) 1 2 (by simp)
      (by rw [abs_lt]; constructor <;> norm_num) (by norm_num) (by norm_num)).2.2.1⟩

/-! ## Base case of the marginalisation identity -/

/-- The joint NLL of one observation as a function of the one-point path, for
positive variances. -/
theorem state_augmented_nll_singleton (a q r y0 x0 : ℝ) (hr : 0 < r)
    (hv : 0 < q / (1 - a * a)) :
    state_augmented_nll [y0] a q r (fun _ => x0)
      = -log_density y0 x0 (Real.sqrt r)
        - log_density x0 0 (Real.sqrt (q / (1 - a * a))) := by
  have h : List.ofFn (fun _ : Fin [y0].length => x0) = [x0] := by
    simp [List.ofFn_succ]
  simp [state_augmented_nll, h, joint_known_singleton y0 x0 a q r hr hv]

/-- C11: base case of the marginalisation identity.  For `|a| < 1`, `q > 0`,
`r > 0` and a single observation `y0`, the joint evaluator returns
`state_augmented_nll([y0], a, q, r, [x0])` on every one-point path `[x0]`, and the
integral over all real `x0` of `exp(-state_augmented_nll([y0], a, q, r, [x0]))`
equals `exp(-kalman_marginal_nll([y0], a, q, r))`. -/
theorem marginalization_base_case (a q r y0 : ℝ) (ha : |a| < 1) (hq : 0 < q)
    (hr : 0 < r) :
    (∀ x0 : ℝ, joint_estimation_known_variance [y0] a q r [x0]
        = CallResult.returned (state_augmented_nll [y0] a q r (fun _ => x0)))
      ∧ ∫ x0 : ℝ, Real.exp (-state_augmented_nll [y0] a q r (fun _ => x0))
        = Real.exp (-kalman_marginal_nll [y0] a q r) := by
  have h1 := one_sub_sq_pos a ha
  have hP : 0 < q / (1 - a * a) := by positivity
  have hS : 0 < q / (1 - a * a) + r := by positivity
  constructor
  · intro x0
    rw [state_augmented_nll_singleton a q r y0 x0 hr hP,
      joint_known_singleton y0 x0 a q r hr hP]
  · have hJ : ∀ x0 : ℝ, Real.exp (-state_augmented_nll [y0] a q r (fun _ => x0))
        = Real.exp (log_density x0 0 (Real.sqrt (q / (1 - a * a)))
            + log_density y0 (1 * x0) (Real.sqrt r) + 0) := by
      intro x0
      rw [state_augmented_nll_singleton a q r y0 x0 hr hP]
      congr 1
      ring_nf
    have hc : Continuous (fun x0 : ℝ =>
        Real.exp (log_density x0 0 (Real.sqrt (q / (1 - a * a)))
          + log_density y0 (1 * x0) (Real.sqrt r) + 0)) :=
      Real.continuous_exp.comp
        (((continuous_log_density (fun x0 : ℝ => x0) (fun _ => 0) _ continuous_id
            continuous_const).add
          (continuous_log_density (fun _ : ℝ => y0) (fun x0 => 1 * x0) _ continuous_const
            (continuous_const.mul continuous_id))).add continuous_const)
    simp only [hJ]
    rw [MeasureTheory.integral_eq_lintegral_of_nonneg_ae
        (Filter.Eventually.of_forall fun x => (Real.exp_pos _).le) hc.aestronglyMeasurable,
      lintegral_exp_update 1 0 _ r y0 0 hP hr,
      ENNReal.toReal_ofReal (Real.exp_pos _).le,
      kalman_marginal_nll_singleton a q r y0 hS]
    congr 1
    simp

/-- Witness of C11 at `a = 1/2`, `q = 1`, `r = 2`, `y0 = 3`. -/
theorem marginalization_base_case_witness :
    (|(1 / 2 : ℝ)| < 1 ∧ (0 : ℝ) < 1 ∧ (0 : ℝ) < 2)
      ∧ ∫ x0 : ℝ, Real.exp (-state_augmented_nll [(3 : ℝ)] (1 / 2) 1 2 (fun _ => x0))
        = Real.exp (-kalman_marginal_nll [(3 : ℝ)] (1 / 2) 1 2) :=
  ⟨⟨by rw [abs_lt]; constructor <;> norm_num, by norm_num, by norm_num⟩,
    (marginalization_base_case (1 / 2) 1 2 3 (by rw [abs_lt]; constructor <;> norm_num)
      (by norm_num) (by norm_num)).2⟩

/-! ## Invariants of the Kalman recursion -/

/-- One iteration of the loop in terms of the quantities it computes. -/
theorem kalman_step_eq (a q r : ℝ) (s : KalmanState ℝ) (yt : ℝ) :
    kalman_step a q r s yt
      = { x_pred := a * filtered_mean r s yt,
          P_pred := a * a * filtered_variance r s + q,
          nll := s.nll + 0.5 * (Real.log (2 * Real.pi * innovation_variance r s)
            + (yt - s.x_pred) ^ 2 / innovation_variance r s) } := rfl

/-- C12: the degenerate-variance error is unreachable on valid input.  For
`|a| < 1`, `q > 0`, `r > 0` and every observation sequence, the divisor `1 - a*a`
of the initialisation is not zero and at every step `t` of the Kalman recursion
the predicted variance `P_pred` is positive and the innovation variance
`S = P_pred + r` is positive; so `S` is not zero (the divisions `P_pred / S` and
`(y[t] - y_pred)^2 / S` are defined), `2*pi*S` is positive (`log(2*pi*S)` is
defined) and `S <= 0` does not occur. -/
theorem degenerate_variance_unreachable (y : List ℝ) (a q r : ℝ) (ha : |a| < 1)
    (hq : 0 < q) (hr : 0 < r) (t : ℕ) (ht : t ≤ y.length) :
    1 - a * a ≠ 0
      ∧ 0 < (kalman_state_at y a q r t).P_pred
      ∧ 0 < innovation_variance r (kalman_state_at y a q r t)
      ∧ innovation_variance r (kalman_state_at y a q r t) ≠ 0
      ∧ 0 < 2 * Real.pi * innovation_variance r (kalman_state_at y a q r t)
      ∧ ¬ innovation_variance r (kalman_state_at y a q r t) ≤ 0 := by
  have hP := kalman_state_at_P_pred_pos y a q r ha hq hr t ht
  have hS : 0 < innovation_variance r (kalman_state_at y a q r t) := by
    unfold innovation_variance
    positivity
  exact ⟨(one_sub_sq_pos a ha).ne', hP, hS, hS.ne', by positivity, not_le.mpr hS⟩

/-- Witness of C12 at `y = [3, 1]`, `a = 1/2`, `q = 1`, `r = 2`, step `t = 1`. -/
theorem degenerate_variance_unreachable_witness :
    (|(1 / 2 : ℝ)| < 1 ∧ (0 : ℝ) < 1 ∧ (0 : ℝ) < 2 ∧ 1 ≤ [(3 : ℝ), 1].length)
      ∧ 0 < (kalman_state_at [(3 : ℝ), 1] (1 / 2) 1 2 1).P_pred
      ∧ 0 < innovation_variance 2 (kalman_state_at [(3 : ℝ), 1] (1 / 2) 1 2 1) :=
  ⟨⟨by rw [abs_lt]; constructor <;> norm_num, by norm_num, by norm_num, by simp⟩,
    (degenerate_variance_unreachable [3, 1] (1 / 2) 1 2
      (by rw [abs_lt]; constructor <;> norm_num) (by norm_num) (by norm_num) 1
      (by simp)).2.1,
    (degenerate_variance_unreachable [3, 1] (1 / 2) 1 2
      (by rw [abs_lt]; constructor <;> norm_num) (by norm_num) (by norm_num) 1
      (by simp)).2.2.1⟩

/-- The filtered variance in closed form. -/
theorem filtered_variance_eq (r : ℝ) (s : KalmanState ℝ) (hP : 0 < s.P_pred) (hr : 0 < r) :
    filtered_variance r s = s.P_pred * r / (s.P_pred + r) := by
  have hS : 0 < s.P_pred + r := by positivity
  unfold filtered_variance kalman_gain innovation_variance
  field_simp
  ring

/-- The filtered variance is increasing in the predicted variance. -/
theorem filtered_variance_mono (r : ℝ) (s s' : KalmanState ℝ) (hP : 0 < s.P_pred)
    (hr : 0 < r) (hle : s.P_pred ≤ s'.P_pred) :
    filtered_variance r s ≤ filtered_variance r s' := by
  have hP' : 0 < s'.P_pred := lt_of_lt_of_le hP hle
  rw [filtered_variance_eq r s hP hr, filtered_variance_eq r s' hP' hr,
    div_le_div_iff₀ (by positivity) (by positivity)]
  nlinarith [mul_nonneg hr.le hr.le, mul_le_mul_of_nonneg_right hle (mul_nonneg hr.le hr.le)]

/-- The predicted variance after iteration `t`. -/
theorem kalman_state_at_succ_P_pred (y : List ℝ) (a q r : ℝ) (t : ℕ) (ht : t < y.length) :
    (kalman_state_at y a q r (t + 1)).P_pred
      = a * a * filtered_variance r (kalman_state_at y a q r t) + q := by
  rw [kalman_state_at_succ y a q r t ht, kalman_step_eq]

/-- With `|a| < 1`, `q > 0`, `r > 0` the predicted variance does not increase from
one step to the next. -/
theorem kalman_state_at_P_pred_antitone (y : List ℝ) (a q r : ℝ) (ha : |a| < 1)
    (hq : 0 < q) (hr : 0 < r) (t : ℕ) (ht : t < y.length) :
    (kalman_state_at y a q r (t + 1)).P_pred ≤ (kalman_state_at y a q r t).P_pred := by
  have h1 := one_sub_sq_pos a ha
  have haa : 0 ≤ a * a := mul_self_nonneg a
  induction t with
  | zero =>
    rw [kalman_state_at_succ_P_pred y a q r 0 ht]
    have hP := kalman_state_at_P_pred_pos y a q r ha hq hr 0 (by omega)
    rw [filtered_variance_eq r _ hP hr]
    rw [kalman_state_at_zero] at hP ⊢
    simp only [kalman_init] at hP ⊢
    have hF : q / (1 - a * a) * r / (q / (1 - a * a) + r) ≤ q / (1 - a * a) := by
      rw [div_le_iff₀ (by positivity)]
      nlinarith [mul_pos hP hP]
    have hfix : a * a * (q / (1 - a * a)) + q = q / (1 - a * a) := by
      field_simp
      ring
    nlinarith [mul_le_mul_of_nonneg_left hF haa]
  | succ t ih =>
    have hle := ih (by omega)
    have hP := kalman_state_at_P_pred_pos y a q r ha hq hr (t + 1) (by omega)
    rw [kalman_state_at_succ_P_pred y a q r (t + 1) ht,
      kalman_state_at_succ_P_pred y a q r t (by omega)]
    have := filtered_variance_mono r _ _ hP hr hle
    nlinarith [mul_le_mul_of_nonneg_left this haa]

/-- C13: Riccati bounds and monotonicity of the predicted variance.  For
`|a| < 1`, `q > 0`, `r > 0` the sequence `P_pred_t` produced by the Kalman
recursion starts at `P_pred_0 = q/(1 - a*a)`, follows
`P_pred_{t+1} = a*a*(1 - K_t)*P_pred_t + q`, satisfies
`q <= P_pred_t <= q/(1 - a*a)` for every `t`, and is non-increasing in `t`. -/
theorem riccati_bounds (y : List ℝ) (a q r : ℝ) (ha : |a| < 1) (hq : 0 < q)
    (hr : 0 < r) :
    (kalman_state_at y a q r 0).P_pred = q / (1 - a * a)
      ∧ (∀ t, t < y.length →
          (kalman_state_at y a q r (t + 1)).P_pred
            = a * a * ((1 - kalman_gain r (kalman_state_at y a q r t))
                * (kalman_state_at y a q r t).P_pred) + q)
      ∧ (∀ t, t ≤ y.length →
          q ≤ (kalman_state_at y a q r t).P_pred
          ∧ (kalman_state_at y a q r t).P_pred ≤ q / (1 - a * a))
      ∧ (∀ t, t < y.length →
          (kalman_state_at y a q r (t + 1)).P_pred ≤ (kalman_state_at y a q r t).P_pred) := by
  have h1 := one_sub_sq_pos a ha
  have haa : 0 ≤ a * a := mul_self_nonneg a
  have h0 : (kalman_state_at y a q r 0).P_pred = q / (1 - a * a) := by
    rw [kalman_state_at_zero, kalman_init]
  refine ⟨h0, fun t ht => kalman_state_at_succ_P_pred y a q r t ht, ?_,
    fun t ht => kalman_state_at_P_pred_antitone y a q r ha hq hr t ht⟩
  intro t ht
  constructor
  · cases t with
    | zero =>
      rw [h0, le_div_iff₀ h1]
      nlinarith
    | succ t =>
      have hP := kalman_state_at_P_pred_pos y a q r ha hq hr t (by omega)
      rw [kalman_state_at_succ_P_pred y a q r t (by omega), filtered_variance_eq r _ hP hr]
      have : 0 ≤ a * a * ((kalman_state_at y a q r t).P_pred * r
          / ((kalman_state_at y a q r t).P_pred + r)) := by positivity
      linarith
  · induction t with
    | zero => rw [h0]
    | succ t ih =>
      exact le_trans (kalman_state_at_P_pred_antitone y a q r ha hq hr t (by omega))
        (ih (by omega))

/-- Witness of C13 at `y = [3, 1]`, `a = 1/2`, `q = 1`, `r = 2`: the bounds at
`t = 1` and the decrease from `t = 0` to `t = 1`. -/
theorem riccati_bounds_witness :
    (|(1 / 2 : ℝ)| < 1 ∧ (0 : ℝ) < 1 ∧ (0 : ℝ) < 2)
      ∧ (1 ≤ (kalman_state_at [(3 : ℝ), 1] (1 / 2) 1 2 1).P_pred
        ∧ (kalman_state_at [(3 : ℝ), 1] (1 / 2) 1 2 1).P_pred ≤ 1 / (1 - 1 / 2 * (1 / 2)))
      ∧ (kalman_state_at [(3 : ℝ), 1] (1 / 2) 1 2 (0 + 1)).P_pred
        ≤ (kalman_state_at [(3 : ℝ), 1] (1 / 2) 1 2 0).P_pred :=
  ⟨⟨by rw [abs_lt]; constructor <;> norm_num, by norm_num, by norm_num⟩,
    (riccati_bounds [3, 1] (1 / 2) 1 2 (by rw [abs_lt]; constructor <;> norm_num)
      (by norm_num) (by norm_num)).2.2.1 1 (by simp),
    (riccati_bounds [3, 1] (1 / 2) 1 2 (by rw [abs_lt]; constructor <;> norm_num)
      (by norm_num) (by norm_num)).2.2.2 0 (by simp)⟩

/-! ## The variances do not depend on the data -/

/-- The predicted variance after the loop depends only on the predicted variance
it starts from and on the number of observations. -/
theorem kalman_foldl_P_pred (a q r : ℝ) (ys : List ℝ) :
    ∀ (ys' : List ℝ) (s s' : KalmanState ℝ), ys.length = ys'.length →
      s.P_pred = s'.P_pred →
      (ys.foldl (kalman_step a q r) s).P_pred = (ys'.foldl (kalman_step a q r) s').P_pred := by
  induction ys with
  | nil =>
    intro ys' s s' hlen hP
    have : ys' = [] := List.length_eq_zero.mp hlen.symm
    subst this
    simpa using hP
  | cons y0 ys ih =>
    intro ys' s s' hlen hP
    cases ys' with
    | nil => simp at hlen
    | cons y0' ys' =>
      simp only [List.foldl_cons]
      apply ih ys' _ _ (by simpa using hlen)
      simp only [kalman_step, hP]

/-- The predicted variance at step `t` is the same for two observation sequences
of the same length. -/
theorem kalman_state_at_P_pred_congr (y y' : List ℝ) (a q r : ℝ)
    (hlen : y.length = y'.length) (t : ℕ) :
    (kalman_state_at y a q r t).P_pred = (kalman_state_at y' a q r t).P_pred := by
  unfold kalman_state_at
  exact kalman_foldl_P_pred a q r _ _ _ _ (by simp [hlen]) rfl

/-- The accumulated `nll` at step `t` split into its logarithmic and its quadratic
part. -/
theorem kalman_state_at_nll_split (y : List ℝ) (a q r : ℝ) (t : ℕ) (ht : t ≤ y.length) :
    (kalman_state_at y a q r t).nll
      = (∑ i in Finset.range t,
          0.5 * Real.log (2 * Real.pi * innovation_variance r (kalman_state_at y a q r i)))
        + ∑ i in Finset.range t,
          0.5 * ((y.getD i 0 - (kalman_state_at y a q r i).x_pred) ^ 2
            / innovation_variance r (kalman_state_at y a q r i)) := by
  induction t with
  | zero => simp [kalman_state_at_zero, kalman_init]
  | succ t ih =>
    rw [Finset.sum_range_succ, Finset.sum_range_succ, kalman_state_at_succ y a q r t (by omega),
      kalman_step_eq]
    simp only
    rw [ih (by omega)]
    ring

/-- C14: the filter's variances and gains do not depend on the data.  For every
`a`, `q`, `r` and two observation sequences `y`, `y'` of the same length, the
Kalman recursion produces the same `P_pred_t`, `S_t`, `K_t` and `P_filt_t` at
every step `t`; and the accumulated `nll` minus its quadratic part
`sum_i 0.5*(y[i] - x_pred_i)^2 / S_i`, that is its logarithmic part, is the same
for both: only `x_pred`, `x_filt` and the quadratic part of the NLL involve the
observations. -/
theorem variances_data_independent (y y' : List ℝ) (a q r : ℝ)
    (hlen : y.length = y'.length) (t : ℕ) (ht : t ≤ y.length) :
    (kalman_state_at y a q r t).P_pred = (kalman_state_at y' a q r t).P_pred
      ∧ innovation_variance r (kalman_state_at y a q r t)
        = innovation_variance r (kalman_state_at y' a q r t)
      ∧ kalman_gain r (kalman_state_at y a q r t)
        = kalman_gain r (kalman_state_at y' a q r t)
      ∧ filtered_variance r (kalman_state_at y a q r t)
        = filtered_variance r (kalman_state_at y' a q r t)
      ∧ (kalman_state_at y a q r t).nll
          - ∑ i in Finset.range t,
              0.5 * ((y.getD i 0 - (kalman_state_at y a q r i).x_pred) ^ 2
                / innovation_variance r (kalman_state_at y a q r i))
        = (kalman_state_at y' a q r t).nll
          - ∑ i in Finset.range t,
              0.5 * ((y'.getD i 0 - (kalman_state_at y' a q r i).x_pred) ^ 2
                / innovation_variance r (kalman_state_at y' a q r i)) := by
  have hP := kalman_state_at_P_pred_congr y y' a q r hlen
  have hS : ∀ i, innovation_variance r (kalman_state_at y a q r i)
      = innovation_variance r (kalman_state_at y' a q r i) := by
    intro i
    simp only [innovation_variance, hP i]
  refine ⟨hP t, hS t, ?_, ?_, ?_⟩
  · simp only [kalman_gain, hS t, hP t]
  · simp only [filtered_variance, kalman_gain, hS t, hP t]
  · rw [kalman_state_at_nll_split y a q r t ht,
      kalman_state_at_nll_split y' a q r t (hlen ▸ ht)]
    simp only [hS, add_sub_cancel_right]

/-- Witness of C14 at `y = [3, 1]`, `y' = [-2, 5]`, `a = 1/2`, `q = 1`, `r = 2`,
step `t = 1`. -/
theorem variances_data_independent_witness :
    ([(3 : ℝ), 1].length = [(-2 : ℝ), 5].length ∧ 1 ≤ [(3 : ℝ), 1].length)
      ∧ (kalman_state_at [(3 : ℝ), 1] (1 / 2) 1 2 1).P_pred
        = (kalman_state_at [(-2 : ℝ), 5] (1 / 2) 1 2 1).P_pred :=
  ⟨⟨rfl, by simp⟩, (variances_data_independent [3, 1] [-2, 5] (1 / 2) 1 2 rfl 1 (by simp)).1⟩

/-! ## The measurement update -/

/-- For a positive predicted variance and `r > 0` the gain lies strictly between
0 and 1. -/
theorem kalman_gain_mem (r : ℝ) (s : KalmanState ℝ) (hP : 0 < s.P_pred) (hr : 0 < r) :
    0 < kalman_gain r s ∧ kalman_gain r s < 1 := by
  have hS : 0 < s.P_pred + r := by positivity
  unfold kalman_gain innovation_variance
  constructor
  · positivity
  · rw [div_lt_one hS]
    linarith

/-- A convex combination of two reals lies between them. -/
theorem filtered_mean_between (r : ℝ) (s : KalmanState ℝ) (yt : ℝ) (hP : 0 < s.P_pred)
    (hr : 0 < r) :
    min s.x_pred yt ≤ filtered_mean r s yt ∧ filtered_mean r s yt ≤ max s.x_pred yt := by
  obtain ⟨hK0, hK1⟩ := kalman_gain_mem r s hP hr
  unfold filtered_mean
  rcases le_total s.x_pred yt with h | h
  · rw [min_eq_left h, max_eq_right h]
    constructor <;> nlinarith
  · rw [min_eq_right h, max_eq_left h]
    constructor <;> nlinarith

/-- C15: the measurement update is a contraction.  At every step `t` of the Kalman
recursion run with `|a| < 1`, `q > 0`, `r > 0`, the gain satisfies `0 < K < 1`, the
filtered mean `x_filt = x_pred + K*(y[t] - x_pred)` lies between `x_pred` and
`y[t]`, and the filtered variance `P_filt = (1 - K)*P_pred` equals
`P_pred*r/(P_pred + r)`, which is positive and strictly less than both `P_pred`
and `r`; the next state of the loop is `x_pred = a*x_filt`,
`P_pred = a*a*P_filt + q`. -/
theorem measurement_update_contraction (y : List ℝ) (a q r : ℝ) (ha : |a| < 1)
    (hq : 0 < q) (hr : 0 < r) (t : ℕ) (ht : t < y.length) :
    (0 < kalman_gain r (kalman_state_at y a q r t)
        ∧ kalman_gain r (kalman_state_at y a q r t) < 1)
      ∧ (min (kalman_state_at y a q r t).x_pred (y.getD t 0)
            ≤ filtered_mean r (kalman_state_at y a q r t) (y.getD t 0)
        ∧ filtered_mean r (kalman_state_at y a q r t) (y.getD t 0)
            ≤ max (kalman_state_at y a q r t).x_pred (y.getD t 0))
      ∧ filtered_variance r (kalman_state_at y a q r t)
        = (kalman_state_at y a q r t).P_pred * r / ((kalman_state_at y a q r t).P_pred + r)
      ∧ 0 < filtered_variance r (kalman_state_at y a q r t)
      ∧ filtered_variance r (kalman_state_at y a q r t) < (kalman_state_at y a q r t).P_pred
      ∧ filtered_variance r (kalman_state_at y a q r t) < r
      ∧ (kalman_state_at y a q r (t + 1)).x_pred
        = a * filtered_mean r (kalman_state_at y a q r t) (y.getD t 0)
      ∧ (kalman_state_at y a q r (t + 1)).P_pred
        = a * a * filtered_variance r (kalman_state_at y a q r t) + q := by
  have hP := kalman_state_at_P_pred_pos y a q r ha hq hr t (by omega)
  have hS : 0 < (kalman_state_at y a q r t).P_pred + r := by positivity
  have hF := filtered_variance_eq r (kalman_state_at y a q r t) hP hr
  refine ⟨kalman_gain_mem r _ hP hr, filtered_mean_between r _ _ hP hr, hF, ?_, ?_, ?_, ?_, ?_⟩
  · rw [hF]; positivity
  · rw [hF, div_lt_iff₀ hS]
    nlinarith [mul_pos hP hP]
  · rw [hF, div_lt_iff₀ hS]
    nlinarith [mul_pos hr hr]
  · rw [kalman_state_at_succ y a q r t ht, kalman_step_eq]
  · rw [kalman_state_at_succ y a q r t ht, kalman_step_eq]

/-- Witness of C15 at `y = [3, 1]`, `a = 1/2`, `q = 1`, `r = 2`, step `t = 1`. -/
theorem measurement_update_contraction_witness :
    (|(1 / 2 : ℝ)| < 1 ∧ (0 : ℝ) < 1 ∧ (0 : ℝ) < 2 ∧ 1 < [(3 : ℝ), 1].length)
      ∧ (0 < kalman_gain 2 (kalman_state_at [(3 : ℝ), 1] (1 / 2) 1 2 1)
        ∧ kalman_gain 2 (kalman_state_at [(3 : ℝ), 1] (1 / 2) 1 2 1) < 1) :=
  ⟨⟨by rw [abs_lt]; constructor <;> norm_num, by norm_num, by norm_num, by simp⟩,
    (measurement_update_contraction [3, 1] (1 / 2) 1 2
      (by rw [abs_lt]; constructor <;> norm_num) (by norm_num) (by norm_num) 1
      (by simp)).1⟩

/-! ## Sign symmetry -/

/-- The log-density is invariant under negating the point and the mean. -/
theorem log_density_neg (x mean sd : ℝ) :
    log_density (-x) (-mean) sd = log_density x mean sd := by
  unfold log_density
  have h : (-x - -mean) / sd = -((x - mean) / sd) := by ring
  rw [h, neg_sq]

/-- Negating the observations and the predicted state negates the predicted state
after the loop and leaves the predicted variance and `nll` unchanged. -/
theorem kalman_foldl_neg (a q r : ℝ) (ys : List ℝ) :
    ∀ (m P c : ℝ),
      (ys.map fun v => -v).foldl (kalman_step a q r) ⟨-m, P, c⟩
        = ⟨-(ys.foldl (kalman_step a q r) ⟨m, P, c⟩).x_pred,
            (ys.foldl (kalman_step a q r) ⟨m, P, c⟩).P_pred,
            (ys.foldl (kalman_step a q r) ⟨m, P, c⟩).nll⟩ := by
  induction ys with
  | nil => intro m P c; rfl
  | cons y0 ys ih =>
    intro m P c
    simp only [List.map_cons, List.foldl_cons]
    have hstep : kalman_step a q r ⟨-m, P, c⟩ (-y0)
        = ⟨-(kalman_step a q r ⟨m, P, c⟩ y0).x_pred, (kalman_step a q r ⟨m, P, c⟩ y0).P_pred,
            (kalman_step a q r ⟨m, P, c⟩ y0).nll⟩ := by
      simp only [kalman_step, KalmanState.mk.injEq]
      refine ⟨by ring, trivial, ?_⟩
      have h : (-y0 - -m) ^ 2 = (y0 - m) ^ 2 := by ring
      rw [h]
    rw [hstep, ih]

/-- The call `dnorm` is invariant under negating the point and the mean. -/
theorem dnorm_neg (x mean sd : ℝ) (give_log : Bool) :
    dnorm (-x) (-mean) sd give_log = dnorm x mean sd give_log := by
  unfold dnorm
  rw [log_density_neg]

/-- The known-variance joint evaluator is invariant under negating the observations
and the state path. -/
theorem joint_known_neg (y x : List ℝ) (a q r : ℝ) :
    joint_estimation_known_variance (y.map fun v => -v) a q r (x.map fun v => -v)
      = joint_estimation_known_variance y a q r x := by
  have hb1 : ∀ (nll : ℝ) (t : ℕ),
      (vector_read (x.map fun v => -v) (t - 1) >>= fun xp =>
        vector_read (x.map fun v => -v) t >>= fun xt =>
          dnorm xt (a * xp) (Real.sqrt q) true >>= fun d => pure (nll - d))
      = (vector_read x (t - 1) >>= fun xp => vector_read x t >>= fun xt =>
          dnorm xt (a * xp) (Real.sqrt q) true >>= fun d => pure (nll - d)) := by
    intro nll t
    unfold vector_read
    simp only [List.getElem?_map]
    cases x[t - 1]? <;> cases x[t]? <;> simp [mul_neg, dnorm_neg]
  have hb2 : ∀ (nll : ℝ) (t : ℕ),
      (vector_read (y.map fun v => -v) t >>= fun yt =>
        vector_read (x.map fun v => -v) t >>= fun xt =>
          dnorm yt xt (Real.sqrt r) true >>= fun d => pure (nll - d))
      = (vector_read y t >>= fun yt => vector_read x t >>= fun xt =>
          dnorm yt xt (Real.sqrt r) true >>= fun d => pure (nll - d)) := by
    intro nll t
    unfold vector_read
    simp only [List.getElem?_map]
    cases y[t]? <;> cases x[t]? <;> simp [dnorm_neg]
  have hb3 : ∀ (nll : ℝ),
      (vector_read (x.map fun v => -v) 0 >>= fun x0 =>
          dnorm x0 0 (Real.sqrt (q / (1 - a * a))) true >>= fun d => pure (nll - d))
      = (vector_read x 0 >>= fun x0 =>
          dnorm x0 0 (Real.sqrt (q / (1 - a * a))) true >>= fun d => pure (nll - d)) := by
    intro nll
    unfold vector_read
    simp only [List.getElem?_map]
    have h0 : ∀ (v sd : ℝ) (g : Bool), dnorm (-v) 0 sd g = dnorm v 0 sd g := by
      intro v sd g
      simpa using dnorm_neg v 0 sd g
    cases x[0]? <;> simp [h0]
  unfold joint_estimation_known_variance
  simp only [List.length_map, sqrt_real, hb1, hb2, hb3]

/-- The Kalman marginal NLL is invariant under negating the observations. -/
theorem kalman_marginal_nll_neg (y : List ℝ) (a q r : ℝ) :
    kalman_marginal_nll (y.map fun v => -v) a q r = kalman_marginal_nll y a q r := by
  have h := kalman_foldl_neg a q r y 0 (q / (1 - a * a)) 0
  rw [neg_zero] at h
  simp only [kalman_marginal_nll, kalman_init, h]

/-- C16: sign symmetry.  For every `a`, `q`, `r` (and `log_q`, `log_r`) and every
observation sequence `y`, the Kalman marginal NLL of the negated sequence `-y`
equals that of `y`; and for every state path `x` the joint evaluators return on
`(-y, -x)` what they return on `(y, x)`, so that for a path of the length of `y`,
`state_augmented_nll(-y, a, q, r, -x) = state_augmented_nll(y, a, q, r, x)`. -/
theorem sign_symmetry (y : List ℝ) (a q r log_q log_r : ℝ) :
    kalman_marginal_nll (y.map fun v => -v) a q r = kalman_marginal_nll y a q r
      ∧ marginal_estimation (y.map fun v => -v) a log_q log_r
        = marginal_estimation y a log_q log_r
      ∧ (∀ x : List ℝ,
          joint_estimation_known_variance (y.map fun v => -v) a q r (x.map fun v => -v)
            = joint_estimation_known_variance y a q r x)
      ∧ (∀ x : List ℝ,
          joint_estimation (y.map fun v => -v) a log_q log_r (x.map fun v => -v)
            = joint_estimation y a log_q log_r x)
      ∧ (∀ x : Fin y.length → ℝ,
          state_augmented_nll (y.map fun v => -v) a q r
              (fun i => -x (Fin.cast (List.length_map y _) i))
            = state_augmented_nll y a q r x) := by
  refine ⟨kalman_marginal_nll_neg y a q r, ?_, fun x => joint_known_neg y x a q r, ?_, ?_⟩
  · simp only [marginal_estimation, kalman_marginal_nll_neg]
  · intro x
    rw [joint_estimation_eq_known, joint_estimation_eq_known, joint_known_neg]
  · intro x
    have h : List.ofFn (fun i : Fin (y.map fun v => -v).length =>
        -x (Fin.cast (List.length_map y _) i)) = (List.ofFn x).map fun v => -v := by
      apply List.ext_getElem
      · simp
      · intro i h1 h2
        simp
    simp only [state_augmented_nll, h, joint_known_neg]

/-! ## Convexity of the joint NLL in the state path -/

/-- The negative log-density is jointly convex in the point and the mean. -/
theorem neg_log_density_convex (l u1 u2 m1 m2 sd : ℝ) (hl0 : 0 ≤ l) (hl1 : l ≤ 1) :
    -log_density (l * u1 + (1 - l) * u2) (l * m1 + (1 - l) * m2) sd
      ≤ l * -log_density u1 m1 sd + (1 - l) * -log_density u2 m2 sd := by
  unfold log_density
  have h : (l * u1 + (1 - l) * u2 - (l * m1 + (1 - l) * m2)) / sd
      = l * ((u1 - m1) / sd) + (1 - l) * ((u2 - m2) / sd) := by ring
  rw [h]
  nlinarith [mul_nonneg (mul_nonneg hl0 (sub_nonneg.mpr hl1))
    (sq_nonneg ((u1 - m1) / sd - (u2 - m2) / sd))]

/-- Reading a convex combination of two paths. -/
theorem getD_ofFn_combination (n : ℕ) (l : ℝ) (x x' : Fin n → ℝ) (t : ℕ) :
    (List.ofFn fun i => l * x i + (1 - l) * x' i).getD t 0
      = l * (List.ofFn x).getD t 0 + (1 - l) * (List.ofFn x').getD t 0 := by
  simp only [List.getD_eq_getElem?_getD]
  by_cases ht : t < n
  · simp [List.getElem?_eq_getElem, ht]
  · simp [List.getElem?_eq_none, not_lt.mp ht]

/-- For a state path of the length of `y`, `n >= 1`, and `|a| < 1`, `q > 0`,
`r > 0`, the joint NLL is the sum of the negative log-densities of the transition,
observation and prior terms. -/
theorem state_augmented_nll_eq_sums (y : List ℝ) (a q r : ℝ) (hn : 1 ≤ y.length)
    (ha : |a| < 1) (hq : 0 < q) (hr : 0 < r) (x : Fin y.length → ℝ) :
    state_augmented_nll y a q r x
      = (∑ t in Finset.Ico 1 y.length,
            -log_density ((List.ofFn x).getD t 0) (a * (List.ofFn x).getD (t - 1) 0)
              (Real.sqrt q))
        + (∑ t in Finset.range y.length,
            -log_density (y.getD t 0) ((List.ofFn x).getD t 0) (Real.sqrt r))
        + -log_density ((List.ofFn x).getD 0 0) 0 (Real.sqrt (q / (1 - a * a))) := by
  have h1 := one_sub_sq_pos a ha
  have hv : 0 < q / (1 - a * a) := by positivity
  have h := joint_known_eq_sums y a q r (List.ofFn x)
    (by rw [List.length_ofFn]; exact (max_eq_right hn).le) (fun _ => hq) (fun _ => hr) hv
  simp only [state_augmented_nll, h, getD_returned, Finset.sum_neg_distrib]
  ring

/-- C17: for fixed observations `y` of length `n >= 1` and fixed `a`, `q`, `r`
with `|a| < 1`, `q > 0`, `r > 0`, the joint NLL is a convex function of the latent
state path: for all paths `x`, `x'` in `R^n` and every `lambda` in `[0, 1]`,
`state_augmented_nll(y, a, q, r, lambda*x + (1 - lambda)*x')
   <= lambda*state_augmented_nll(y, a, q, r, x)
      + (1 - lambda)*state_augmented_nll(y, a, q, r, x')`,
where `state_augmented_nll` is the value the joint evaluator returns on each of the
three paths. -/
theorem state_augmented_nll_convex (y : List ℝ) (a q r : ℝ) (hn : 1 ≤ y.length)
    (ha : |a| < 1) (hq : 0 < q) (hr : 0 < r) (x x' : Fin y.length → ℝ) (l : ℝ)
    (hl0 : 0 ≤ l) (hl1 : l ≤ 1) :
    (joint_estimation_known_variance y a q r (List.ofFn x)
          = CallResult.returned (state_augmented_nll y a q r x)
        ∧ joint_estimation_known_variance y a q r (List.ofFn x')
          = CallResult.returned (state_augmented_nll y a q r x')
        ∧ joint_estimation_known_variance y a q r
            (List.ofFn fun i => l * x i + (1 - l) * x' i)
          = CallResult.returned
              (state_augmented_nll y a q r fun i => l * x i + (1 - l) * x' i))
      ∧ state_augmented_nll y a q r (fun i => l * x i + (1 - l) * x' i)
        ≤ l * state_augmented_nll y a q r x + (1 - l) * state_augmented_nll y a q r x' := by
  refine ⟨⟨(state_augmented_nll_eq y a q r hn ha hq hr x).1,
    (state_augmented_nll_eq y a q r hn ha hq hr x').1,
    (state_augmented_nll_eq y a q r hn ha hq hr _).1⟩, ?_⟩
  rw [state_augmented_nll_eq_sums y a q r hn ha hq hr x,
    state_augmented_nll_eq_sums y a q r hn ha hq hr x',
    state_augmented_nll_eq_sums y a q r hn ha hq hr _]
  simp only [getD_ofFn_combination]
  have h1 : ∀ t, -log_density (l * (List.ofFn x).getD t 0 + (1 - l) * (List.ofFn x').getD t 0)
        (a * (l * (List.ofFn x).getD (t - 1) 0 + (1 - l) * (List.ofFn x').getD (t - 1) 0))
        (Real.sqrt q)
      ≤ l * -log_density ((List.ofFn x).getD t 0) (a * (List.ofFn x).getD (t - 1) 0)
          (Real.sqrt q)
        + (1 - l) * -log_density ((List.ofFn x').getD t 0)
          (a * (List.ofFn x').getD (t - 1) 0) (Real.sqrt q) := by
    intro t
    have h := neg_log_density_convex l ((List.ofFn x).getD t 0) ((List.ofFn x').getD t 0)
      (a * (List.ofFn x).getD (t - 1) 0) (a * (List.ofFn x').getD (t - 1) 0) (Real.sqrt q)
      hl0 hl1
    have e : a * (l * (List.ofFn x).getD (t - 1) 0 + (1 - l) * (List.ofFn x').getD (t - 1) 0)
        = l * (a * (List.ofFn x).getD (t - 1) 0)
          + (1 - l) * (a * (List.ofFn x').getD (t - 1) 0) := by ring
    rw [e]
    exact h
  have h2 : ∀ t, -log_density (y.getD t 0)
        (l * (List.ofFn x).getD t 0 + (1 - l) * (List.ofFn x').getD t 0) (Real.sqrt r)
      ≤ l * -log_density (y.getD t 0) ((List.ofFn x).getD t 0) (Real.sqrt r)
        + (1 - l) * -log_density (y.getD t 0) ((List.ofFn x').getD t 0) (Real.sqrt r) := by
    intro t
    have h := neg_log_density_convex l (y.getD t 0) (y.getD t 0)
      ((List.ofFn x).getD t 0) ((List.ofFn x').getD t 0) (Real.sqrt r) hl0 hl1
    have e : l * y.getD t 0 + (1 - l) * y.getD t 0 = y.getD t 0 := by ring
    rw [e] at h
    exact h
  have h3 : -log_density (l * (List.ofFn x).getD 0 0 + (1 - l) * (List.ofFn x').getD 0 0) 0
        (Real.sqrt (q / (1 - a * a)))
      ≤ l * -log_density ((List.ofFn x).getD 0 0) 0 (Real.sqrt (q / (1 - a * a)))
        + (1 - l) * -log_density ((List.ofFn x').getD 0 0) 0
          (Real.sqrt (q / (1 - a * a))) := by
    have h := neg_log_density_convex l ((List.ofFn x).getD 0 0) ((List.ofFn x').getD 0 0)
      0 0 (Real.sqrt (q / (1 - a * a))) hl0 hl1
    have e : l * (0 : ℝ) + (1 - l) * 0 = 0 := by ring
    rw [e] at h
    exact h
  have s1 := Finset.sum_le_sum (s := Finset.Ico 1 y.length) fun t _ => h1 t
  have s2 := Finset.sum_le_sum (s := Finset.range y.length) fun t _ => h2 t
  rw [Finset.sum_add_distrib, ← Finset.mul_sum, ← Finset.mul_sum] at s1 s2
  linarith

/-- Witness of C17 at `y = [3, 1]`, `a = 1/2`, `q = 1`, `r = 2`, `x = (4, 2)`,
`x' = (0, 1)`, `lambda = 1/4`. -/
theorem state_augmented_nll_convex_witness :
    (1 ≤ [(3 : ℝ), 1].length ∧ |(1 / 2 : ℝ)| < 1 ∧ (0 : ℝ) < 1 ∧ (0 : ℝ) < 2
        ∧ (0 : ℝ) ≤ 1 / 4 ∧ (1 / 4 : ℝ) ≤ 1)
      ∧ state_augmented_nll [(3 : ℝ), 1] (1 / 2) 1 2
          (fun i => 1 / 4 * (![4, 2] : Fin 2 → ℝ) i + (1 - 1 / 4) * (![0, 1] : Fin 2 → ℝ) i)
        ≤ 1 / 4 * state_augmented_nll [(3 : ℝ), 1] (1 / 2) 1 2 ![4, 2]
          + (1 - 1 / 4) * state_augmented_nll [(3 : ℝ), 1] (1 / 2) 1 2 ![0, 1] :=
  ⟨⟨by simp, by rw [abs_lt]; constructor <;> norm_num, by norm_num, by norm_num,
      by norm_num, by norm_num⟩,
    (state_augmented_nll_convex [3, 1] (1 / 2) 1 2 (by simp)
      (by rw [abs_lt]; constructor <;> norm_num) (by norm_num) (by norm_num)
      ![4, 2] ![0, 1] (1 / 4) (by norm_num) (by norm_num)).2⟩

end StateSpace
